import Mathlib

/-! Knowledge-base search backend.

A shallow embedding of `web-interface/backend/server.js`: the in-memory index of
note files and the search function over it (scoring, filtering, sorting,
pagination, match extraction and excerpt extraction), the extraction of the
metadata of a file, the two stores with the directory scan and the watcher
handlers that fill them, and the request handlers that read them.

JavaScript strings are modelled as lists of UTF-16 code units, so that `length`,
`indexOf`, `substring` and `split` count exactly what the runtime counts.
`String.prototype.toLowerCase` is a runtime table: the functions of the program
take it as the parameter `lower`, and the general theorems hold for every such
function.  The concrete `toLowerCase` below is used to evaluate the program on
concrete inputs.
-/

namespace KnowledgeBase

/-! ## Runtime strings -/

/-- A JavaScript string: the list of its UTF-16 code units. -/
abbrev JSString := List Nat

/-- UTF-16 encoding of one code point. -/
def utf16Units (c : Char) : List Nat :=
  if c.toNat < 0x10000 then [c.toNat]
  else [0xD800 + (c.toNat - 0x10000) / 0x400, 0xDC00 + (c.toNat - 0x10000) % 0x400]

/-- The JavaScript string denoted by a string literal. -/
def js (s : String) : JSString := s.toList.flatMap utf16Units

/-- `StringIndexOf` of ECMAScript: the first position `k ≥ i` (counted from the
position `i` of the head of the remaining string) at which `t` starts, or `-1`. -/
def indexOfFrom (t : JSString) : JSString → Nat → Int
  | [], i => if t.isPrefixOf [] then (i : Int) else -1
  | c :: s, i => if t.isPrefixOf (c :: s) then (i : Int) else indexOfFrom t s (i + 1)

/-- `s.indexOf(t)`. -/
def indexOf (s t : JSString) : Int := indexOfFrom t s 0

/-- `s.includes(t)`: `StringIndexOf(s, t, 0)` is not `-1`. -/
def includes (s t : JSString) : Bool := indexOf s t != -1

/-- `s.substring(a, b)`: both indices are clamped to `[0, s.length]` and swapped
when the first exceeds the second. -/
def substring (s : JSString) (a b : Int) : JSString :=
  let a' := min a.toNat s.length
  let b' := min b.toNat s.length
  (s.take (max a' b')).drop (min a' b')

/-- `arr.slice(a, b)` for non-negative integers `a` and `b`. -/
def slice {α : Type} (arr : List α) (a b : Nat) : List α := (arr.take b).drop a

/-- `s.split(sep)` for a separator of one code unit. -/
def split (sep : Nat) : JSString → List JSString
  | [] => [[]]
  | c :: cs =>
    if c = sep then [] :: split sep cs
    else match split sep cs with
      | [] => [[c]]
      | l :: ls => (c :: l) :: ls

/-- The code units `\s` of a regular expression matches and `trim` removes:
ECMAScript WhiteSpace and LineTerminator. -/
def isWhiteSpace (c : Nat) : Bool :=
  c == 9 || c == 10 || c == 11 || c == 12 || c == 13 || c == 32 || c == 0xA0 ||
  c == 0x1680 || (0x2000 ≤ c && c ≤ 0x200A) || c == 0x2028 || c == 0x2029 ||
  c == 0x202F || c == 0x205F || c == 0x3000 || c == 0xFEFF

/-- `s.trim()`. -/
def trim (s : JSString) : JSString :=
  ((s.dropWhile isWhiteSpace).reverse.dropWhile isWhiteSpace).reverse

/-- Lower-casing of one code unit, on the repertoire the concrete evaluations
use: the ASCII capitals, and U+0130 (capital I with dot above), which the
Unicode special casing maps to the two code units U+0069 U+0307.  Every other
code unit is left as it is. -/
def toLowerCaseUnit (c : Nat) : List Nat :=
  if 65 ≤ c ∧ c ≤ 90 then [c + 32]
  else if c = 0x130 then [0x69, 0x307]
  else [c]

/-- `s.toLowerCase()` on that repertoire. -/
def toLowerCase (s : JSString) : JSString := s.flatMap toLowerCaseUnit

/-- The ellipsis marker `'...'`. -/
def ellipsis : JSString := [46, 46, 46]

/-! ## Data model -/

/-- The `fileInfo` record `indexFile` builds for one note file. -/
structure FileInfo where
  path : JSString
  title : JSString
  content : JSString
  tags : List JSString
  category : JSString
  size : Nat
  lastModified : Int
  deriving DecidableEq, Repr

/-- The `type` of a match entry: `'title'`, `'tag'`, `'content'` or `'path'`. -/
inductive MatchType where
  | title | tag | content | path
  deriving DecidableEq, Repr

/-- A match entry `{type, text, line?}`. -/
structure Match where
  type : MatchType
  text : JSString
  line : Option Nat
  deriving DecidableEq, Repr

/-- A search result `{...file, score, matches, relevantContent}`; the field
`matches` is named `matchEntries` here. -/
structure SearchResult where
  file : FileInfo
  score : Nat
  matchEntries : List Match
  relevantContent : JSString
  deriving DecidableEq, Repr

/-- The `options` argument of `searchKnowledgeBase`; `none` is an absent field. -/
structure SearchOptions where
  limit : Option Nat
  offset : Option Nat
  category : Option JSString
  tags : Option (List JSString)
  sortBy : Option JSString
  deriving DecidableEq, Repr

/-- The object `searchKnowledgeBase` returns. -/
structure SearchResponse where
  results : List SearchResult
  total : Nat
  query : JSString
  options : SearchOptions
  deriving DecidableEq, Repr

/-! ## Regular expressions

The patterns of the program are sequences of the five node kinds below; the
matcher is the backtracking matcher of ECMAScript restricted to them: greedy
repetition of a one-code-unit class, giving back one code unit at a time. -/

/-- ECMAScript LineTerminator: the code units `.` does not match, and at which
`^` and `$` match under the `m` flag. -/
def isLineTerminator (c : Nat) : Bool :=
  c == 10 || c == 13 || c == 0x2028 || c == 0x2029

/-- A node of a pattern. -/
inductive Node where
  /-- The assertion `^` under the `m` flag. -/
  | bol
  /-- The assertion `$` under the `m` flag. -/
  | eol
  /-- One literal code unit. -/
  | lit (c : Nat)
  /-- Greedy repetition, at least `least` times, of a class of code units. -/
  | rep (cls : Nat → Bool) (least : Nat)
  /-- The same repetition inside the capturing group 1. -/
  | cap (cls : Nat → Bool) (least : Nat)

/-- The outcome of a successful match: the text of group 1 (if the pattern has
one) and the input left after the match. -/
structure MatchState where
  group : Option JSString
  rest : JSString
  deriving DecidableEq, Repr

/-- Greedy repetition of `cls`: take one more code unit when possible and try the
continuation `k` on what follows; when that fails, stop here, provided at least
`least` code units were taken.  `taken` is the text consumed so far (reversed),
`prev` the code unit before the current position. -/
def greedy (cls : Nat → Bool) (least : Nat)
    (k : JSString → Option Nat → JSString → Option MatchState) :
    JSString → Option Nat → JSString → Option MatchState
  | taken, prev, [] => if least ≤ taken.length then k taken.reverse prev [] else none
  | taken, prev, c :: s =>
    let stopHere := if least ≤ taken.length then k taken.reverse prev (c :: s) else none
    if cls c then
      match greedy cls least k (c :: taken) (some c) s with
      | some r => some r
      | none => stopHere
    else stopHere

/-- Match the pattern at the current position; `prev` is the code unit before
it (`none` at the start of the input). -/
def matchHere : List Node → Option Nat → JSString → Option MatchState
  | [], _, s => some { group := none, rest := s }
  | Node.bol :: pat, prev, s =>
    match prev with
    | none => matchHere pat prev s
    | some p => if isLineTerminator p then matchHere pat prev s else none
  | Node.eol :: pat, prev, s =>
    match s with
    | [] => matchHere pat prev s
    | c :: _ => if isLineTerminator c then matchHere pat prev s else none
  | Node.lit c :: pat, _, s =>
    match s with
    | [] => none
    | d :: s' => if c = d then matchHere pat (some d) s' else none
  | Node.rep cls least :: pat, prev, s =>
    greedy cls least (fun _ prev' s' => matchHere pat prev' s') [] prev s
  | Node.cap cls least :: pat, prev, s =>
    greedy cls least
      (fun text prev' s' =>
        match matchHere pat prev' s' with
        | some r => some { r with group := some text }
        | none => none) [] prev s

/-- The leftmost match of the pattern in the input (`str.match(re)` without the
`g` flag): try each start position in turn. -/
def exec (pat : List Node) : Option Nat → JSString → Option MatchState
  | prev, [] => matchHere pat prev []
  | prev, c :: s =>
    match matchHere pat prev (c :: s) with
    | some r => some r
    | none => exec pat (some c) s

/-- All matches of the pattern, left to right and not overlapping
(`str.match(re)` with the `g` flag); after an empty match the position advances
by one code unit.  Every round consumes a code unit, so `fuel` above the length
of the input is never exhausted. -/
def matchAllFrom (pat : List Node) : Nat → Option Nat → JSString → List JSString
  | 0, _, _ => []
  | fuel + 1, prev, s =>
    match matchHere pat prev s with
    | some r =>
      let text := s.take (s.length - r.rest.length)
      match text.getLast?, s with
      | some last, _ => text :: matchAllFrom pat fuel (some last) r.rest
      | none, [] => [[]]
      | none, c :: s' => [] :: matchAllFrom pat fuel (some c) s'
    | none =>
      match s with
      | [] => []
      | c :: s' => matchAllFrom pat fuel (some c) s'

/-- The result of `str.match(re)` with the `g` flag (`null` is the empty list). -/
def matchAll (pat : List Node) (s : JSString) : List JSString :=
  matchAllFrom pat (s.length + 1) none s

/-- The literal text of a pattern. -/
def litText (s : String) : List Node := (js s).map Node.lit

/-- The pattern `/^#\s+(.+)$/m`. -/
def titlePattern : List Node :=
  [Node.bol, Node.lit 35, Node.rep isWhiteSpace 1,
    Node.cap (fun c => !isLineTerminator c) 1, Node.eol]

/-- The pattern `/^Tag:\s*(.+)$/m`. -/
def tagLinePattern : List Node :=
  [Node.bol] ++ litText "Tag:" ++
    [Node.rep isWhiteSpace 0, Node.cap (fun c => !isLineTerminator c) 1, Node.eol]

/-- The pattern `/#[^#\s]+/g`. -/
def tagTokenPattern : List Node :=
  [Node.lit 35, Node.rep (fun c => !(c == 35 || isWhiteSpace c)) 1]

/-- The pattern `/^Category:\s*(.+)$/m`. -/
def categoryLinePattern : List Node :=
  [Node.bol] ++ litText "Category:" ++
    [Node.rep isWhiteSpace 0, Node.cap (fun c => !isLineTerminator c) 1, Node.eol]

/-! ## Metadata extraction -/

/-- `extractTitle(content, fileName)`; `fileName.replace(/\.md$/, '')` removes
the suffix `.md` when the name ends with it (`$` without the `m` flag matches at
the end of the input only). -/
def extractTitle (content fileName : JSString) : JSString :=
  match exec titlePattern none content with
  | some titleMatch => trim (titleMatch.group.getD [])
  | none =>
    if (js ".md").isSuffixOf fileName then fileName.take (fileName.length - 3)
    else fileName

/-- `extractTags(content)`. -/
def extractTags (content : JSString) : List JSString :=
  let tags : List JSString := []
  let tags :=
    match exec tagLinePattern none content with
    | some tagMatch =>
      let tagString := tagMatch.group.getD []
      let tagMatches := matchAll tagTokenPattern tagString
      tags ++ tagMatches.map (fun tag => substring tag 1 tag.length)
    | none => tags
  let tags :=
    match exec categoryLinePattern none content with
    | some categoryMatch => tags ++ [trim (categoryMatch.group.getD [])]
    | none => tags
  tags

/-- The separator `path.sep` of the platform (POSIX: `/`). -/
def pathSep : Nat := 47

/-- `extractCategory(filePath)`. -/
def extractCategory (filePath : JSString) : JSString :=
  let parts := split pathSep filePath
  if parts.length ≥ 2 then parts.headD [] else js "未分类"

/-- `path.basename(filePath)` of a file path: its last segment. -/
def basename (filePath : JSString) : JSString :=
  (split pathSep filePath).getLastD []

/-- The record `fileInfo` that `indexFile` builds from the relative path of a
file, its content as read from disk, and its modification time. -/
def fileInfo (relativePath content : JSString) (mtime : Int) : FileInfo :=
  { path := relativePath
    title := extractTitle content (basename relativePath)
    content := content
    tags := extractTags content
    category := extractCategory relativePath
    size := content.length
    lastModified := mtime }

/-! ## Match and excerpt extraction -/

section Program

variable (lower : JSString → JSString)

/-- The callback of `lines.forEach` in `extractContentMatches`. -/
def contentMatchStep (queryLower : JSString) (acc : List Match) (entry : Nat × JSString) :
    List Match :=
  if includes (lower entry.2) queryLower then
    acc ++ [{ type := MatchType.content, text := trim entry.2, line := some (entry.1 + 1) }]
  else acc

/-- `extractContentMatches(content, query)`. -/
def extractContentMatches (content query : JSString) : List Match :=
  let queryLower := lower query
  let lines := split 10 content
  let acc := lines.enum.foldl (contentMatchStep lower queryLower) []
  slice acc 0 3

/-- `extractRelevantContent(content, query, maxLength)`; the callers leave
`maxLength` to its default, 300. -/
def extractRelevantContent (content query : JSString) (maxLength : Nat) : JSString :=
  let queryLower := lower query
  let index := indexOf (lower content) queryLower
  if index = -1 then substring content 0 maxLength ++ ellipsis
  else
    let start : Int := max 0 (index - 100)
    let stop : Int := min (content.length : Int) (index + query.length + 100)
    let extracted := substring content start stop
    let extracted := if start > 0 then ellipsis ++ extracted else extracted
    let extracted := if stop < content.length then extracted ++ ellipsis else extracted
    extracted

/-! ## Search -/

/-- The score and the match list accumulated for one file. -/
structure Tally where
  score : Nat
  matchEntries : List Match
  deriving DecidableEq, Repr

/-- The callback of `file.tags.forEach` in `searchKnowledgeBase`. -/
def tagStep (queryLower : JSString) (acc : Tally) (tag : JSString) : Tally :=
  if includes (lower tag) queryLower then
    { score := acc.score + 8
      matchEntries := acc.matchEntries ++ [{ type := MatchType.tag, text := tag, line := none }] }
  else acc

/-- The scoring part of the callback of `fileIndex.forEach`: title, tags,
content, path, in this order. -/
def tally (query : JSString) (file : FileInfo) : Tally :=
  let queryLower := lower query
  let acc : Tally := { score := 0, matchEntries := [] }
  let acc :=
    if includes (lower file.title) queryLower then
      { score := acc.score + 10
        matchEntries :=
          acc.matchEntries ++ [{ type := MatchType.title, text := file.title, line := none }] }
    else acc
  let acc := file.tags.foldl (tagStep lower queryLower) acc
  let acc :=
    if includes (lower file.content) queryLower then
      { score := acc.score + 5
        matchEntries := acc.matchEntries ++ extractContentMatches lower file.content query }
    else acc
  let acc :=
    if includes (lower file.path) queryLower then
      { score := acc.score + 3
        matchEntries :=
          acc.matchEntries ++ [{ type := MatchType.path, text := file.path, line := none }] }
    else acc
  acc

/-- The test `category && file.category !== category`: `null` and the empty
string are falsy. -/
def categoryExcludes (category : Option JSString) (file : FileInfo) : Bool :=
  match category with
  | none => false
  | some c => c != [] && file.category != c

/-- The value `hasMatchingTag` of the tag filter. -/
def hasMatchingTag (tags : List JSString) (file : FileInfo) : Bool :=
  tags.any fun tag => file.tags.any fun fileTag => includes (lower fileTag) (lower tag)

/-- The test of the tag filter: `tags.length > 0` and no matching tag. -/
def tagsExclude (tags : List JSString) (file : FileInfo) : Bool :=
  decide (tags.length > 0) && !hasMatchingTag lower tags file

/-- The callback of `fileIndex.forEach`: the two filters return early, then the
file is scored and pushed on `results` when its score is positive. -/
def searchStep (query : JSString) (category : Option JSString) (tags : List JSString)
    (results : List SearchResult) (file : FileInfo) : List SearchResult :=
  if categoryExcludes category file then results
  else if tagsExclude lower tags file then results
  else
    let acc := tally lower query file
    if acc.score > 0 then
      results ++ [{ file := file
                    score := acc.score
                    matchEntries := acc.matchEntries
                    relevantContent := extractRelevantContent lower file.content query 300 }]
    else results

/-- The comparator given to `results.sort`. -/
def compareResults (sortBy : JSString) (a b : SearchResult) : Int :=
  if sortBy = js "relevance" then (b.score : Int) - a.score
  else if sortBy = js "date" then b.file.lastModified - a.file.lastModified
  else if sortBy = js "size" then (b.file.size : Int) - a.file.size
  else (b.score : Int) - a.score

/-- `arr.sort(cmp)`: the stable sort that puts `a` before `b` when
`cmp(a, b) < 0` and keeps their order when `cmp(a, b) = 0`. -/
def sort {α : Type} (cmp : α → α → Int) (arr : List α) : List α :=
  arr.insertionSort (fun a b => cmp a b ≤ 0)

/-- The array `results` of `searchKnowledgeBase` after the loop over the index. -/
def collectResults (fileIndex : List FileInfo) (query : JSString) (options : SearchOptions) :
    List SearchResult :=
  fileIndex.foldl (searchStep lower query options.category (options.tags.getD [])) []

/-- The array `results` after `results.sort`: the full filtered and sorted list. -/
def sortedResults (fileIndex : List FileInfo) (query : JSString) (options : SearchOptions) :
    List SearchResult :=
  sort (compareResults (options.sortBy.getD (js "relevance")))
    (collectResults lower fileIndex query options)

/-- `searchKnowledgeBase(query, options)` over the index `fileIndex`. -/
def searchKnowledgeBase (fileIndex : List FileInfo) (query : JSString)
    (options : SearchOptions) : SearchResponse :=
  let limit := options.limit.getD 10
  let offset := options.offset.getD 0
  let results := sortedResults lower fileIndex query options
  let paginatedResults := slice results offset (offset + limit)
  { results := paginatedResults
    total := results.length
    query := query
    options := options }

end Program

/-! ## The index store -/

/-- The Map `knowledgeCache`: its entries in insertion order, one per key. -/
abbrev Cache := List (JSString × FileInfo)

/-- `map.has(key)`. -/
def mapHas (m : Cache) (key : JSString) : Bool := m.any (fun e => e.1 == key)

/-- `map.get(key)` (`none` is `undefined`). -/
def mapGet (m : Cache) (key : JSString) : Option FileInfo :=
  (m.find? (fun e => e.1 == key)).map (fun e => e.2)

/-- `map.set(key, value)`: the value of an existing key is replaced in place, a
new key is added at the end. -/
def mapSet (m : Cache) (key : JSString) (value : FileInfo) : Cache :=
  if mapHas m key then m.map (fun e => if e.1 == key then (key, value) else e)
  else m ++ [(key, value)]

/-- `map.delete(key)`. -/
def mapDelete (m : Cache) (key : JSString) : Cache := m.filter (fun e => e.1 != key)

/-- The module-level state: the array `fileIndex` and the Map `knowledgeCache`. -/
structure Store where
  fileIndex : List FileInfo
  knowledgeCache : Cache
  deriving DecidableEq, Repr

/-- The state at process start, and after the reset at the start of a reindex:
`fileIndex = []` and an empty `knowledgeCache`. -/
def emptyStore : Store := { fileIndex := [], knowledgeCache := [] }

/-- `indexFile(filePath)`, for the file of relative path `relativePath`
(`path.relative(KNOWLEDGE_BASE_ROOT, filePath)`).  `read` is what `fs.readFile`
and `fs.stat` give for it: the content and the modification time, or `none`
when one of them throws; the `catch` then logs and leaves the stores as they
are. -/
def indexFile (st : Store) (relativePath : JSString) (read : Option (JSString × Int)) : Store :=
  match read with
  | some (content, mtime) =>
    let info := fileInfo relativePath content mtime
    { fileIndex := st.fileIndex ++ [info]
      knowledgeCache := mapSet st.knowledgeCache relativePath info }
  | none => st

/-- The watcher's handler of `add`. -/
def watcherAdd (st : Store) (relativePath : JSString) (read : Option (JSString × Int)) : Store :=
  indexFile st relativePath read

/-- The watcher's handler of `change`. -/
def watcherChange (st : Store) (relativePath : JSString) (read : Option (JSString × Int)) :
    Store :=
  indexFile st relativePath read

/-- The watcher's handler of `unlink`. -/
def watcherUnlink (st : Store) (relativePath : JSString) : Store :=
  { fileIndex := st.fileIndex.filter (fun file => file.path != relativePath)
    knowledgeCache := mapDelete st.knowledgeCache relativePath }

/-! ## The directory scan -/

/-- An entry of a directory, as the scan sees it: a file (with what reading it
gives, as for `indexFile`), a directory (with whether `fs.readdir` can list it,
and its entries), or a name on which `fs.stat` throws. -/
inductive Entry where
  | file (name : JSString) (read : Option (JSString × Int))
  | dir (name : JSString) (readable : Bool) (entries : List Entry)
  | dangling (name : JSString)

/-- The relative path of the entry `name` of the directory of relative path
`dir` (the root has the empty relative path): `path.join(dir, file)`, taken
relative to the root. -/
def joinPath (dir name : JSString) : JSString :=
  if dir = [] then name else dir ++ [pathSep] ++ name

/-- How an `async` function ends: it completes, or it throws; either way the
stores are in the state it left them in. -/
inductive Outcome where
  | done (st : Store)
  | threw (st : Store)
  deriving DecidableEq, Repr

mutual

/-- One round of the loop `for (const file of files)` of `scanDir`: `fs.stat`,
then `scanDir` (whose first statement, `fs.readdir`, throws on a directory that
cannot be listed) for a directory, `indexFile` for a file whose name ends in
`.md`, nothing for another file.  Nothing in `scanDir` catches. -/
def scanEntry (st : Store) (dir : JSString) : Entry → Outcome
  | Entry.file name read =>
    if (js ".md").isSuffixOf name then Outcome.done (indexFile st (joinPath dir name) read)
    else Outcome.done st
  | Entry.dir name readable entries =>
    if readable then scanEntries st (joinPath dir name) entries else Outcome.threw st
  | Entry.dangling _ => Outcome.threw st

/-- The loop of `scanDir` over the entries `fs.readdir` listed. -/
def scanEntries (st : Store) (dir : JSString) : List Entry → Outcome
  | [] => Outcome.done st
  | e :: es =>
    match scanEntry st dir e with
    | Outcome.done st' => scanEntries st' dir es
    | Outcome.threw st' => Outcome.threw st'

end

/-- `initializeKnowledgeBase()`: `scanDir(KNOWLEDGE_BASE_ROOT)`, `root` being
what is at the root path. -/
def initializeKnowledgeBase (st : Store) (root : Entry) : Outcome :=
  match root with
  | Entry.dir _ true entries => scanEntries st [] entries
  | _ => Outcome.threw st

/-! ## Request handlers -/

/-- The body of a JSON response. -/
inductive Body where
  /-- `{error, message}`; `message` is `none` where it is the text of an
  exception of the runtime. -/
  | error (error : JSString) (message : Option JSString)
  | search (response : SearchResponse)
  | file (info : FileInfo)
  | reindexed (message : JSString) (filesIndexed : Nat)
  deriving DecidableEq, Repr

/-- A response: the status code and the JSON body. -/
structure HttpResponse where
  status : Nat
  body : Body
  deriving DecidableEq, Repr

/-- `logSearch(query, results)`.  Its first statement builds the object `log`,
whose field `userIp` is `req.ip || 'unknown'`; `req` is a parameter of the route
handlers and is bound neither in `logSearch` nor at module level, so evaluating
it throws the ReferenceError `req is not defined`, before anything is pushed on
`searchLogs`. -/
def logSearch (_query : JSString) (_results : SearchResponse) : Except JSString Unit :=
  Except.error (js "req is not defined")

/-- The handler of `POST /api/search`, for a body whose `query` is a string or
absent (`none`) and whose `options` is an object or absent. -/
def searchHandler (lower : JSString → JSString) (st : Store) (query : Option JSString)
    (options : Option SearchOptions) : HttpResponse :=
  let options := options.getD ⟨none, none, none, none, none⟩
  match query with
  | none => { status := 400, body := Body.error (js "搜索查询不能为空") none }
  | some query =>
    if query = [] ∨ trim query = [] then
      { status := 400, body := Body.error (js "搜索查询不能为空") none }
    else
      let results := searchKnowledgeBase lower st.fileIndex query options
      match logSearch query results with
      | Except.ok _ => { status := 200, body := Body.search results }
      | Except.error message =>
        { status := 500, body := Body.error (js "搜索失败") (some message) }

/-- The value of a hexadecimal digit, if the code unit is one. -/
def hexDigit (c : Nat) : Option Nat :=
  if 48 ≤ c ∧ c ≤ 57 then some (c - 48)
  else if 65 ≤ c ∧ c ≤ 70 then some (c - 55)
  else if 97 ≤ c ∧ c ≤ 102 then some (c - 87)
  else none

/-- A piece of a URI component: a code unit that stands for itself, or the
octet of an escape `%XY`. -/
inductive UriToken where
  | unit (c : Nat)
  | octet (b : Nat)
  deriving DecidableEq, Repr

/-- The escapes of a URI component are read from left to right: a `%` must be
followed by two hexadecimal digits, and `none` is the `URIError` thrown when it
is not. -/
def uriTokens : JSString → Option (List UriToken)
  | [] => some []
  | c :: rest =>
    if c = 37 then
      match rest with
      | a :: b :: rest' =>
        match hexDigit a, hexDigit b with
        | some x, some y =>
          match uriTokens rest' with
          | some tokens => some (UriToken.octet (16 * x + y) :: tokens)
          | none => none
        | _, _ => none
      | _ => none
    else
      match uriTokens rest with
      | some tokens => some (UriToken.unit c :: tokens)
      | none => none

/-- The six payload bits of a continuation octet `10xxxxxx`, which has to be
given by an escape. -/
def continuation : UriToken → Option Nat
  | UriToken.octet b => if 0x80 ≤ b ∧ b < 0xC0 then some (b - 0x80) else none
  | UriToken.unit _ => none

/-- The UTF-16 code units of a code point. -/
def utf16OfCodePoint (v : Nat) : List Nat :=
  if v < 0x10000 then [v]
  else [0xD800 + (v - 0x10000) / 0x400, 0xDC00 + (v - 0x10000) % 0x400]

/-- The octets are decoded as UTF-8 (`Decode` of ECMAScript with an empty
reserved set): an octet below `0x80` is its character; a leading octet
announces one to three continuation octets, each given by an escape, and the
sequence must be the UTF-8 encoding of a code point (shortest form, no
surrogate, at most `0x10FFFF`); anything else is a `URIError`. -/
def decodeTokens : List UriToken → Option JSString
  | [] => some []
  | UriToken.unit c :: rest =>
    match decodeTokens rest with
    | some s => some (c :: s)
    | none => none
  | UriToken.octet b :: rest =>
    if b < 0x80 then
      match decodeTokens rest with
      | some s => some (b :: s)
      | none => none
    else if b < 0xC0 then none
    else if b < 0xE0 then
      match rest with
      | t1 :: rest' =>
        match continuation t1 with
        | some c1 =>
          if 0x80 ≤ (b - 0xC0) * 64 + c1 then
            match decodeTokens rest' with
            | some s => some (((b - 0xC0) * 64 + c1) :: s)
            | none => none
          else none
        | none => none
      | _ => none
    else if b < 0xF0 then
      match rest with
      | t1 :: t2 :: rest' =>
        match continuation t1, continuation t2 with
        | some c1, some c2 =>
          if 0x800 ≤ (b - 0xE0) * 4096 + c1 * 64 + c2 ∧
              ¬ (0xD800 ≤ (b - 0xE0) * 4096 + c1 * 64 + c2 ∧
                (b - 0xE0) * 4096 + c1 * 64 + c2 ≤ 0xDFFF) then
            match decodeTokens rest' with
            | some s => some (((b - 0xE0) * 4096 + c1 * 64 + c2) :: s)
            | none => none
          else none
        | _, _ => none
      | _ => none
    else if b < 0xF8 then
      match rest with
      | t1 :: t2 :: t3 :: rest' =>
        match continuation t1, continuation t2, continuation t3 with
        | some c1, some c2, some c3 =>
          if 0x10000 ≤ (b - 0xF0) * 262144 + c1 * 4096 + c2 * 64 + c3 ∧
              (b - 0xF0) * 262144 + c1 * 4096 + c2 * 64 + c3 ≤ 0x10FFFF then
            match decodeTokens rest' with
            | some s =>
              some (utf16OfCodePoint ((b - 0xF0) * 262144 + c1 * 4096 + c2 * 64 + c3) ++ s)
            | none => none
          else none
        | _, _, _ => none
      | _ => none
    else none

/-- `decodeURIComponent(s)`; `none` is the `URIError` it throws. -/
def decodeURIComponent (s : JSString) : Option JSString :=
  match uriTokens s with
  | some tokens => decodeTokens tokens
  | none => none

/-- The handler of `GET /api/files/:path`; `param` is `req.params.path`, the
path segment as the router hands it over.  The handler decodes it with
`decodeURIComponent`; when that throws, the `catch` answers 500; otherwise the
decoded path is looked up in `knowledgeCache`. -/
def getFileHandler (st : Store) (param : JSString) : HttpResponse :=
  match decodeURIComponent param with
  | none => { status := 500, body := Body.error (js "获取文件详情失败") none }
  | some filePath =>
    if !mapHas st.knowledgeCache filePath then
      { status := 404, body := Body.error (js "文件不存在") none }
    else
      match mapGet st.knowledgeCache filePath with
      | some info => { status := 200, body := Body.file info }
      | none => { status := 404, body := Body.error (js "文件不存在") none }

/-- The handler of `POST /api/reindex`: both stores are reset, the root is
scanned, and the answer is the number of indexed files, or 500 when the scan
threw.  The state after it comes with the response. -/
def reindexHandler (root : Entry) : Store × HttpResponse :=
  match initializeKnowledgeBase emptyStore root with
  | Outcome.done st =>
    (st, { status := 200, body := Body.reindexed (js "重新索引完成") st.fileIndex.length })
  | Outcome.threw st =>
    (st, { status := 500, body := Body.error (js "重新索引失败") none })

/-! ## The note files of a tree -/

mutual

/-- The note files below an entry of the directory `dir`: every file whose name
ends in `.md`, at any depth, in the order of the listings, with its relative
path and what reading it gives. -/
def entryNotes (dir : JSString) : Entry → List (JSString × Option (JSString × Int))
  | Entry.file name read => if (js ".md").isSuffixOf name then [(joinPath dir name, read)] else []
  | Entry.dir name _ entries => entriesNotes (joinPath dir name) entries
  | Entry.dangling _ => []

/-- The note files below the entries of the directory `dir`. -/
def entriesNotes (dir : JSString) : List Entry → List (JSString × Option (JSString × Int))
  | [] => []
  | e :: es => entryNotes dir e ++ entriesNotes dir es

end

mutual

/-- The entry is fully readable: `fs.stat` succeeds on it, a file can be read, a
directory can be listed and its entries are fully readable. -/
def entryReadable : Entry → Bool
  | Entry.file _ read => read.isSome
  | Entry.dir _ readable entries => readable && entriesReadable entries
  | Entry.dangling _ => false

/-- All the entries are fully readable. -/
def entriesReadable : List Entry → Bool
  | [] => true
  | e :: es => entryReadable e && entriesReadable es

end

/-! ## Two trees -/

/-- A root with exactly three note files, at three depths, and two other files. -/
def threeNoteTree : List Entry :=
  [Entry.file (js "a.md") (some (js "# A", 1)),
    Entry.dir (js "sub") true
      [Entry.file (js "b.md") (some (js "# B", 2)),
        Entry.file (js "notes.txt") (some (js "not a note", 3)),
        Entry.dir (js "deep") true [Entry.file (js "c.md") (some (js "# C", 4))]],
    Entry.file (js "readme.txt") (some (js "read me", 5))]

/-- A root with a note file, then a directory that cannot be listed, then
another note file. -/
def lockedTree : List Entry :=
  [Entry.file (js "a.md") (some (js "# A", 1)),
    Entry.dir (js "locked") false [Entry.file (js "x.md") (some (js "# X", 2))],
    Entry.file (js "b.md") (some (js "# B", 3))]

/-! ## Bytes on disk -/

/-- The number of bytes of the UTF-8 encoding of one code point. -/
def utf8Size (c : Char) : Nat :=
  if c.toNat < 0x80 then 1
  else if c.toNat < 0x800 then 2
  else if c.toNat < 0x10000 then 3
  else 4

/-- The byte length of a file that holds the UTF-8 encoding of the text `text`
(a list of code points). -/
def byteLength (text : List Char) : Nat := (text.map utf8Size).sum

/-- What `fs.readFile(filePath, 'utf8')` gives for that file: the string of the
code points of `text`. -/
def readUtf8 (text : List Char) : JSString := text.flatMap utf16Units

/-! ## The watcher's ignore pattern -/

/-- The option `ignored: /node_modules/` of `chokidar.watch`: a path is ignored
when the pattern matches it, that is when `node_modules` occurs in it. -/
def watcherIgnored (filePath : JSString) : Bool := includes filePath (js "node_modules")

/-- The three events the watcher subscribes to. -/
inductive WatchEvent where
  | add | change | unlink
  deriving DecidableEq, Repr

/-- What an event on the file of relative path `relativePath` under the root
`root` does to the stores: nothing when the path of the file is ignored,
otherwise what the handler of the event does. -/
def watcher (root : JSString) (st : Store) (event : WatchEvent) (relativePath : JSString)
    (read : Option (JSString × Int)) : Store :=
  if watcherIgnored (joinPath root relativePath) then st
  else
    match event with
    | WatchEvent.add => watcherAdd st relativePath read
    | WatchEvent.change => watcherChange st relativePath read
    | WatchEvent.unlink => watcherUnlink st relativePath

/-- A root with a note file inside `node_modules`, and one beside it. -/
def vendoredTree : List Entry :=
  [Entry.dir (js "node_modules") true
      [Entry.dir (js "pkg") true [Entry.file (js "README.md") (some (js "# Pkg", 1))]],
    Entry.file (js "a.md") (some (js "# A", 2))]

/-! ## Tokens and field lines, as the specification words them

These definitions read a text code unit by code unit.  They use neither the
patterns of `extractTags` nor the matcher; the theorems on tags compare the
code with them. -/

/-- The token in progress, if it has a character. -/
def emitToken (cur : Option JSString) : List JSString :=
  match cur with
  | some (c :: cs) => [c :: cs]
  | _ => []

/-- The tokens prefixed with `#` met while reading a text from left to right,
without their prefix.  `cur` is the token in progress after a `#` (`none`
outside a token): a `#` ends it and starts another, a whitespace character ends
it, any other character extends it; a token that has no character is not a
token. -/
def tokensFrom : Option JSString → JSString → List JSString
  | cur, [] => emitToken cur
  | cur, c :: s =>
    if c = 35 then emitToken cur ++ tokensFrom (some []) s
    else if isWhiteSpace c then emitToken cur ++ tokensFrom none s
    else
      match cur with
      | some token => tokensFrom (some (token ++ [c])) s
      | none => tokensFrom none s

/-- The tokens prefixed with `#` of a text, in order, without their prefix. -/
def hashTokens (text : JSString) : List JSString := tokensFrom none text

/-- The remainder of the first line that starts with `field`: the text after
`field` up to the end of that line.  `atLineStart` tells whether the text
starts a line. -/
def fieldRemainder (field : JSString) : Bool → JSString → Option JSString
  | atLineStart, [] => if atLineStart && field.isPrefixOf [] then some [] else none
  | atLineStart, c :: s =>
    if atLineStart && field.isPrefixOf (c :: s) then
      some (((c :: s).drop field.length).takeWhile (fun d => !isLineTerminator d))
    else fieldRemainder field (isLineTerminator c) s

/-- The first line of the content that starts with `field`, if there is one, has
text after `field`: a character that is not whitespace. -/
def fieldHasText (field content : JSString) : Bool :=
  match fieldRemainder field true content with
  | none => true
  | some remainder => remainder.any (fun c => !isWhiteSpace c)

/-! ## Extractions in flight -/

/-- A call of `indexFile` made by a handler of the watcher and suspended at its
`await`s; `read` is what `fs.readFile` and `fs.stat` give to this call. -/
structure Extraction where
  relativePath : JSString
  read : Option (JSString × Int)
  deriving DecidableEq, Repr

/-- The extraction completes: its reads are back and the rest of `indexFile`
(building the record, `fileIndex.push`, `knowledgeCache.set`) runs without
suspension on the stores as they are then. -/
def completeExtraction (st : Store) (e : Extraction) : Store :=
  indexFile st e.relativePath e.read

/-- The extractions complete one after the other, in the order of the list. -/
def completeInOrder (st : Store) (es : List Extraction) : Store :=
  es.foldl completeExtraction st

/-! ## Sequences of store operations -/

/-- An operation on the stores: `indexFile` run for a path (on a created or
modified event, or by the scan), the `unlink` handler, and the reset at the
start of a reindex. -/
inductive StoreOp where
  | index (relativePath : JSString) (read : Option (JSString × Int))
  | unlink (relativePath : JSString)
  | clear

/-- The effect of one operation. -/
def applyOp (st : Store) : StoreOp → Store
  | StoreOp.index relativePath read => indexFile st relativePath read
  | StoreOp.unlink relativePath => watcherUnlink st relativePath
  | StoreOp.clear => emptyStore

/-- The stores after a sequence of operations, from the empty state. -/
def runOps (ops : List StoreOp) : Store := ops.foldl applyOp emptyStore

end KnowledgeBase

/-! ## Facts about the runtime strings -/

namespace KnowledgeBase

theorem indexOfFrom_eq_neg_one_iff (t : JSString) :
    ∀ (s : JSString) (i : Nat), indexOfFrom t s i = -1 ↔ ¬ t <:+: s := by
  intro s
  induction s with
  | nil =>
    intro i
    by_cases h : t = []
    · subst h
      simp [indexOfFrom]
    · have h' : t.isPrefixOf [] = false := by
        cases t with
        | nil => exact absurd rfl h
        | cons a t => rfl
      simp [indexOfFrom, h', h]
  | cons c s ih =>
    intro i
    by_cases h : t.isPrefixOf (c :: s) = true
    · have hp : t <+: c :: s := List.isPrefixOf_iff_prefix.mp h
      rw [indexOfFrom, if_pos h]
      constructor
      · intro h1
        omega
      · intro h1
        exact absurd hp.isInfix h1
    · have hp : ¬ t <+: c :: s := fun hp => h (List.isPrefixOf_iff_prefix.mpr hp)
      rw [indexOfFrom, if_neg h, ih (i + 1), List.infix_cons_iff]
      tauto

theorem includes_iff (s t : JSString) : includes s t = true ↔ t <:+: s := by
  unfold includes indexOf
  rw [bne_iff_ne, Ne, indexOfFrom_eq_neg_one_iff, not_not]

theorem includes_eq_decide (s t : JSString) : includes s t = decide (t <:+: s) := by
  by_cases h : t <:+: s
  · rw [(includes_iff s t).mpr h, decide_eq_true h]
  · rw [decide_eq_false h]
    cases hi : includes s t with
    | false => rfl
    | true => exact absurd ((includes_iff s t).mp hi) h

theorem indexOfFrom_found (t : JSString) :
    ∀ (s : JSString) (i : Nat), indexOfFrom t s i ≠ -1 →
      ∃ k : Nat, indexOfFrom t s i = (i : Int) + k ∧ t <+: s.drop k ∧
        k + t.length ≤ s.length ∧ ∀ j, j < k → ¬ t <+: s.drop j := by
  intro s
  induction s with
  | nil =>
    intro i h
    by_cases hp : t.isPrefixOf [] = true
    · have hp' : t <+: [] := List.isPrefixOf_iff_prefix.mp hp
      refine ⟨0, ?_, by simpa using hp', ?_, ?_⟩
      · simp [indexOfFrom, hp]
      · have := hp'.length_le
        simpa using this
      · intro j hj
        omega
    · simp [indexOfFrom, hp] at h
  | cons c s ih =>
    intro i h
    by_cases hp : t.isPrefixOf (c :: s) = true
    · have hp' : t <+: c :: s := List.isPrefixOf_iff_prefix.mp hp
      refine ⟨0, ?_, by simpa using hp', ?_, ?_⟩
      · simp [indexOfFrom, hp]
      · have := hp'.length_le
        simpa using this
      · intro j hj
        omega
    · rw [indexOfFrom, if_neg hp] at h
      obtain ⟨k, hk, hpre, hlen, hmin⟩ := ih (i + 1) h
      refine ⟨k + 1, ?_, by simpa using hpre, ?_, ?_⟩
      · rw [indexOfFrom, if_neg hp, hk]
        push_cast
        ring
      · simp only [List.length_cons]
        omega
      · intro j hj
        cases j with
        | zero =>
          intro hq
          exact hp (List.isPrefixOf_iff_prefix.mpr (by simpa using hq))
        | succ j =>
          simpa using hmin j (by omega)

theorem split_ne_nil (sep : Nat) : ∀ s : JSString, split sep s ≠ [] := by
  intro s
  induction s with
  | nil => simp [split]
  | cons c cs ih =>
    unfold split
    split_ifs
    · simp
    · cases h : split sep cs with
      | nil => exact absurd h ih
      | cons l ls => simp

/-- The pieces of `split` hold no separator, and joining them with the separator
gives the string back. -/
theorem split_spec (sep : Nat) :
    ∀ s : JSString, (∀ l ∈ split sep s, sep ∉ l) ∧ [sep].intercalate (split sep s) = s := by
  intro s
  induction s with
  | nil => simp [split, List.intercalate]
  | cons c cs ih =>
    obtain ⟨ih1, ih2⟩ := ih
    unfold split
    by_cases hc : c = sep
    · subst hc
      rw [if_pos rfl]
      refine ⟨?_, ?_⟩
      · intro l hl
        rcases List.mem_cons.mp hl with h | h
        · subst h
          simp
        · exact ih1 l h
      · cases h : split c cs with
        | nil => exact absurd h (split_ne_nil c cs)
        | cons l ls =>
          rw [h] at ih2
          simpa [List.intercalate, List.intersperse] using ih2
    · rw [if_neg hc]
      cases h : split sep cs with
      | nil => exact absurd h (split_ne_nil sep cs)
      | cons l ls =>
        rw [h] at ih1 ih2
        refine ⟨?_, ?_⟩
        · intro l' hl'
          rcases List.mem_cons.mp hl' with h' | h'
          · subst h'
            intro hmem
            rcases List.mem_cons.mp hmem with h'' | h''
            · exact hc h''.symm
            · exact ih1 l (List.mem_cons_self _ _) h''
          · exact ih1 l' (List.mem_cons_of_mem _ h')
        · cases ls with
          | nil =>
            simp [List.intercalate, List.intersperse] at ih2 ⊢
            exact ih2
          | cons l2 ls2 =>
            simp [List.intercalate, List.intersperse] at ih2 ⊢
            exact ih2

/-! ## Scoring -/

theorem foldl_tagStep_score (lower : JSString → JSString) (queryLower : JSString) :
    ∀ (tags : List JSString) (acc : Tally),
      (tags.foldl (tagStep lower queryLower) acc).score =
        acc.score + 8 * tags.countP (fun tag => decide (queryLower <:+: lower tag)) := by
  intro tags
  induction tags with
  | nil => intro acc; simp
  | cons tag tags ih =>
    intro acc
    rw [List.foldl_cons, ih]
    by_cases h : queryLower <:+: lower tag
    · simp [tagStep, (includes_iff _ _).mpr h, h]
      ring
    · simp [tagStep, includes_eq_decide, h]

theorem tally_score (lower : JSString → JSString) (query : JSString) (file : FileInfo) :
    (tally lower query file).score =
      (if lower query <:+: lower file.title then 10 else 0) +
        8 * file.tags.countP (fun tag => decide (lower query <:+: lower tag)) +
        (if lower query <:+: lower file.content then 5 else 0) +
        (if lower query <:+: lower file.path then 3 else 0) := by
  unfold tally
  simp only [includes_eq_decide, decide_eq_true_eq]
  split_ifs <;> simp [foldl_tagStep_score]

/-! ## The result list -/

theorem foldl_searchStep_files (lower : JSString → JSString) (query : JSString)
    (category : Option JSString) (tags : List JSString) :
    ∀ (l : List FileInfo) (acc : List SearchResult),
      (l.foldl (searchStep lower query category tags) acc).map SearchResult.file =
        acc.map SearchResult.file ++
          l.filter (fun file => !categoryExcludes category file &&
            !tagsExclude lower tags file && decide (0 < (tally lower query file).score)) := by
  intro l
  induction l with
  | nil => intro acc; simp
  | cons file l ih =>
    intro acc
    rw [List.foldl_cons, ih]
    unfold searchStep
    by_cases h1 : categoryExcludes category file = true
    · simp [h1]
    · by_cases h2 : tagsExclude lower tags file = true
      · simp [h1, h2]
      · by_cases h3 : 0 < (tally lower query file).score
        · simp [h1, h2, h3]
        · simp [h1, h2, h3]

theorem foldl_searchStep_mem (lower : JSString → JSString) (query : JSString)
    (category : Option JSString) (tags : List JSString) :
    ∀ (l : List FileInfo) (acc : List SearchResult) (r : SearchResult),
      r ∈ l.foldl (searchStep lower query category tags) acc →
        r ∈ acc ∨ (r.file ∈ l ∧ categoryExcludes category r.file = false ∧
          tagsExclude lower tags r.file = false ∧
          r.score = (tally lower query r.file).score ∧ 0 < r.score ∧
          r.matchEntries = (tally lower query r.file).matchEntries ∧
          r.relevantContent = extractRelevantContent lower r.file.content query 300) := by
  intro l
  induction l with
  | nil => intro acc r h; exact Or.inl h
  | cons file l ih =>
    intro acc r h
    rw [List.foldl_cons] at h
    rcases ih _ r h with h | h
    · unfold searchStep at h
      by_cases h1 : categoryExcludes category file = true
      · rw [if_pos h1] at h
        exact Or.inl h
      · rw [if_neg h1] at h
        by_cases h2 : tagsExclude lower tags file = true
        · rw [if_pos h2] at h
          exact Or.inl h
        · rw [if_neg h2] at h
          by_cases h3 : (tally lower query file).score > 0
          · simp only [h3, if_true, List.mem_append, List.mem_singleton] at h
            rcases h with h | h
            · exact Or.inl h
            · subst h
              refine Or.inr ⟨List.mem_cons_self _ _, ?_, ?_, rfl, h3, rfl, rfl⟩
              · simpa using h1
              · simpa using h2
          · simp only [h3, if_false] at h
            exact Or.inl h
    · obtain ⟨hm, hrest⟩ := h
      exact Or.inr ⟨List.mem_cons_of_mem _ hm, hrest⟩

theorem mem_collectResults (lower : JSString → JSString) (fileIndex : List FileInfo)
    (query : JSString) (options : SearchOptions) (r : SearchResult)
    (h : r ∈ collectResults lower fileIndex query options) :
    r.file ∈ fileIndex ∧ categoryExcludes options.category r.file = false ∧
      tagsExclude lower (options.tags.getD []) r.file = false ∧
      r.score = (tally lower query r.file).score ∧ 0 < r.score ∧
      r.matchEntries = (tally lower query r.file).matchEntries ∧
      r.relevantContent = extractRelevantContent lower r.file.content query 300 := by
  rcases foldl_searchStep_mem lower query options.category (options.tags.getD [])
    fileIndex [] r h with h | h
  · simp at h
  · exact h

theorem sort_perm {α : Type} (cmp : α → α → Int) (arr : List α) : (sort cmp arr).Perm arr :=
  List.perm_insertionSort _ arr

theorem mem_sortedResults (lower : JSString → JSString) (fileIndex : List FileInfo)
    (query : JSString) (options : SearchOptions) (r : SearchResult) :
    r ∈ sortedResults lower fileIndex query options ↔
      r ∈ collectResults lower fileIndex query options :=
  (sort_perm _ _).mem_iff

theorem slice_sublist {α : Type} (arr : List α) (a b : Nat) : (slice arr a b).Sublist arr :=
  (List.drop_sublist _ _).trans (List.take_sublist _ _)

theorem mem_results (lower : JSString → JSString) (fileIndex : List FileInfo)
    (query : JSString) (options : SearchOptions) (r : SearchResult)
    (h : r ∈ (searchKnowledgeBase lower fileIndex query options).results) :
    r ∈ collectResults lower fileIndex query options :=
  (mem_sortedResults lower fileIndex query options r).mp ((slice_sublist _ _ _).subset h)

/-- C1: the score `searchKnowledgeBase` computes for a document is 10 if the
lower-cased query is a substring of the lower-cased title, plus 8 for every tag
whose lower-cased form contains it, plus 5 if the lower-cased content contains
it, plus 3 if the lower-cased path contains it; every returned result carries
that score; and the document extracted from `"# Hello\nTag: #x #y\nCategory: Z\nworld"`
at `foo/bar.md` is returned with score 15 for the query `hello`. -/
theorem search_score_weighted_sum :
    (∀ (lower : JSString → JSString) (query : JSString) (file : FileInfo),
      (tally lower query file).score =
        (if lower query <:+: lower file.title then 10 else 0) +
          8 * file.tags.countP (fun tag => decide (lower query <:+: lower tag)) +
          (if lower query <:+: lower file.content then 5 else 0) +
          (if lower query <:+: lower file.path then 3 else 0)) ∧
    (∀ (lower : JSString → JSString) (fileIndex : List FileInfo) (query : JSString)
        (options : SearchOptions),
      ∀ r ∈ (searchKnowledgeBase lower fileIndex query options).results,
        r.score =
          (if lower query <:+: lower r.file.title then 10 else 0) +
            8 * r.file.tags.countP (fun tag => decide (lower query <:+: lower tag)) +
            (if lower query <:+: lower r.file.content then 5 else 0) +
            (if lower query <:+: lower r.file.path then 3 else 0)) ∧
    (∀ mtime : Int,
      (searchKnowledgeBase toLowerCase
          [fileInfo (js "foo/bar.md") (js "# Hello\nTag: #x #y\nCategory: Z\nworld") mtime]
          (js "hello") ⟨none, none, none, none, none⟩).results.map
        (fun r => (r.file.title, r.file.tags, r.file.category, r.score)) =
        [(js "Hello", [js "x", js "y", js "Z"], js "foo", 15)]) := by
  refine ⟨tally_score, ?_, ?_⟩
  · intro lower fileIndex query options r hr
    rw [(mem_collectResults lower fileIndex query options r
      (mem_results lower fileIndex query options r hr)).2.2.2.1]
    exact tally_score lower query r.file
  · intro mtime
    rfl

/-- C2: a document of the index contributes an entry to the full result list
exactly when neither filter excludes it and its score is positive (the files of
the full list are, up to order, the documents of the index with that property);
every entry of the full list, and so every returned result, has score at least 1. -/
theorem search_results_iff_filters_and_positive_score (lower : JSString → JSString)
    (fileIndex : List FileInfo) (query : JSString) (options : SearchOptions) :
    ((sortedResults lower fileIndex query options).map SearchResult.file).Perm
        (fileIndex.filter (fun file => !categoryExcludes options.category file &&
          !tagsExclude lower (options.tags.getD []) file &&
          decide (0 < (tally lower query file).score))) ∧
      (∀ file, (∃ r ∈ sortedResults lower fileIndex query options, r.file = file) ↔
        (file ∈ fileIndex ∧ categoryExcludes options.category file = false ∧
          tagsExclude lower (options.tags.getD []) file = false ∧
          0 < (tally lower query file).score)) ∧
      (∀ r ∈ sortedResults lower fileIndex query options,
        r.score = (tally lower query r.file).score ∧ 1 ≤ r.score) ∧
      (∀ r ∈ (searchKnowledgeBase lower fileIndex query options).results, 1 ≤ r.score) := by
  have hperm : ((sortedResults lower fileIndex query options).map SearchResult.file).Perm
      (fileIndex.filter (fun file => !categoryExcludes options.category file &&
        !tagsExclude lower (options.tags.getD []) file &&
        decide (0 < (tally lower query file).score))) := by
    have h := foldl_searchStep_files lower query options.category (options.tags.getD [])
      fileIndex []
    simp only [List.map_nil, List.nil_append] at h
    rw [← h]
    exact (sort_perm _ _).map _
  refine ⟨hperm, ?_, ?_, ?_⟩
  · intro file
    have hmem := hperm.mem_iff (a := file)
    rw [List.mem_map] at hmem
    rw [hmem, List.mem_filter]
    simp
    tauto
  · intro r hr
    have h := mem_collectResults lower fileIndex query options r
      ((mem_sortedResults lower fileIndex query options r).mp hr)
    exact ⟨h.2.2.2.1, h.2.2.2.2.1⟩
  · intro r hr
    exact (mem_collectResults lower fileIndex query options r
      (mem_results lower fileIndex query options r hr)).2.2.2.2.1

/-- C3: the returned results are the elements at positions
`offset .. offset + limit - 1` of the full filtered and sorted list (defaults:
offset 0, limit 10), so at most `limit` of them; `total` is the length of the full
list, whatever the limit and the offset are. -/
theorem search_pagination (lower : JSString → JSString) (fileIndex : List FileInfo)
    (query : JSString) (options : SearchOptions) :
    (searchKnowledgeBase lower fileIndex query options).results =
        ((sortedResults lower fileIndex query options).drop (options.offset.getD 0)).take
          (options.limit.getD 10) ∧
      (∀ i, i < options.limit.getD 10 →
        (searchKnowledgeBase lower fileIndex query options).results[i]? =
          (sortedResults lower fileIndex query options)[options.offset.getD 0 + i]?) ∧
      (searchKnowledgeBase lower fileIndex query options).results.length =
        min (options.limit.getD 10)
          ((sortedResults lower fileIndex query options).length - options.offset.getD 0) ∧
      (searchKnowledgeBase lower fileIndex query options).results.length ≤
        options.limit.getD 10 ∧
      (searchKnowledgeBase lower fileIndex query options).total =
        (sortedResults lower fileIndex query options).length ∧
      (∀ limit offset : Option Nat,
        sortedResults lower fileIndex query { options with limit := limit, offset := offset } =
            sortedResults lower fileIndex query options ∧
          (searchKnowledgeBase lower fileIndex query
            { options with limit := limit, offset := offset }).total =
            (searchKnowledgeBase lower fileIndex query options).total) := by
  have h1 : (searchKnowledgeBase lower fileIndex query options).results =
      ((sortedResults lower fileIndex query options).drop (options.offset.getD 0)).take
        (options.limit.getD 10) := by
    simp only [searchKnowledgeBase, slice]
    rw [List.drop_take]
    simp
  refine ⟨h1, ?_, ?_, ?_, rfl, ?_⟩
  · intro i hi
    rw [h1, List.getElem?_take_of_lt hi, List.getElem?_drop]
  · rw [h1, List.length_take, List.length_drop]
  · rw [h1, List.length_take]
    exact Nat.min_le_left _ _
  · intro limit offset
    exact ⟨rfl, rfl⟩

theorem sort_sorted_of_key {α : Type} (key : α → Int) (cmp : α → α → Int)
    (hcmp : ∀ a b, cmp a b ≤ 0 ↔ key b ≤ key a) (arr : List α) :
    (sort cmp arr).Sorted (fun a b => key b ≤ key a) := by
  have hrel : (fun a b => cmp a b ≤ 0) = (fun a b => key b ≤ key a) := by
    funext a b
    exact propext (hcmp a b)
  unfold sort
  haveI : IsTotal α (fun a b => key b ≤ key a) := ⟨fun a b => le_total (key b) (key a)⟩
  haveI : IsTrans α (fun a b => key b ≤ key a) := ⟨fun a b c hab hbc => le_trans hbc hab⟩
  have h := List.sorted_insertionSort (fun a b => key b ≤ key a) arr
  convert h using 2

/-- C4: the result list is ordered non-increasingly by the key `sortBy` selects:
`lastModified` for `'date'`, `size` for `'size'`, and the score for
`'relevance'`, an absent `sortBy` and every other value. -/
theorem search_results_sorted (lower : JSString → JSString) (fileIndex : List FileInfo)
    (query : JSString) (options : SearchOptions) :
    (searchKnowledgeBase lower fileIndex query options).results.Sorted
      (fun a b =>
        (if options.sortBy = some (js "date") then b.file.lastModified
          else if options.sortBy = some (js "size") then (b.file.size : Int)
          else (b.score : Int)) ≤
        (if options.sortBy = some (js "date") then a.file.lastModified
          else if options.sortBy = some (js "size") then (a.file.size : Int)
          else (a.score : Int))) := by
  have hfull : (sortedResults lower fileIndex query options).Sorted
      (fun a b =>
        (if options.sortBy = some (js "date") then b.file.lastModified
          else if options.sortBy = some (js "size") then (b.file.size : Int)
          else (b.score : Int)) ≤
        (if options.sortBy = some (js "date") then a.file.lastModified
          else if options.sortBy = some (js "size") then (a.file.size : Int)
          else (a.score : Int))) := by
    unfold sortedResults
    refine sort_sorted_of_key
      (fun r : SearchResult => if options.sortBy = some (js "date") then r.file.lastModified
        else if options.sortBy = some (js "size") then (r.file.size : Int)
        else (r.score : Int)) _ ?_ _
    intro a b
    have hrd : js "relevance" ≠ js "date" := by decide
    have hds : js "date" ≠ js "size" := by decide
    unfold compareResults
    cases hs : options.sortBy with
    | none =>
      simp only [Option.getD_none, if_true, reduceCtorEq, if_false]
      omega
    | some s =>
      simp only [Option.getD_some, Option.some.injEq]
      by_cases h1 : s = js "relevance"
      · subst h1
        simp only [if_true, hrd, if_false]
        have : js "relevance" ≠ js "size" := by decide
        simp only [this, if_false]
        omega
      · by_cases h2 : s = js "date"
        · subst h2
          simp only [h1, if_false, if_true]
          omega
        · by_cases h3 : s = js "size"
          · subst h3
            simp only [h1, h2, if_false, if_true]
            omega
          · simp only [h1, h2, h3, if_false]
            omega
  exact hfull.sublist (slice_sublist _ _ _)

/-- C5, as stated, fails for the empty category string: the guard
`category && ...` treats it like an absent category, and the document of
category `foo` is returned. -/
theorem category_filter_empty_string_counterexample :
    ¬ (∀ r ∈ (searchKnowledgeBase toLowerCase
          [fileInfo (js "foo/bar.md") (js "# Hello\nTag: #x #y\nCategory: Z\nworld") 0]
          (js "hello") ⟨none, none, some (js ""), none, none⟩).results,
        r.file.category = js "") := by
  intro h
  have h0 := h
    { file := fileInfo (js "foo/bar.md") (js "# Hello\nTag: #x #y\nCategory: Z\nworld") 0
      score := 15
      matchEntries :=
        [{ type := MatchType.title, text := js "Hello", line := none },
          { type := MatchType.content, text := js "# Hello", line := some 1 }]
      relevantContent := js "# Hello\nTag: #x #y\nCategory: Z\nworld" }
    (by decide)
  revert h0
  decide

/-- C5 (amended): when `options.category` is a non-empty string `c`, every
returned result has category exactly `c`, and a document whose category differs
from `c` has no entry in the full result list, whatever its score. -/
theorem category_filter_exact (lower : JSString → JSString) (fileIndex : List FileInfo)
    (query : JSString) (options : SearchOptions) (c : JSString) (hc : c ≠ [])
    (hopt : options.category = some c) :
    (∀ r ∈ (searchKnowledgeBase lower fileIndex query options).results,
        r.file.category = c) ∧
      (∀ file, file.category ≠ c →
        ∀ r ∈ sortedResults lower fileIndex query options, r.file ≠ file) := by
  have key : ∀ r ∈ collectResults lower fileIndex query options, r.file.category = c := by
    intro r hr
    have h := (mem_collectResults lower fileIndex query options r hr).2.1
    rw [hopt] at h
    simp only [categoryExcludes, Bool.and_eq_false_imp, bne_iff_ne, ne_eq] at h
    have h2 := h hc
    simpa using h2
  refine ⟨fun r hr => key r (mem_results lower fileIndex query options r hr), ?_⟩
  intro file hfile r hr heq
  apply hfile
  rw [← heq]
  exact key r ((mem_sortedResults lower fileIndex query options r).mp hr)

/-- The amended C5 at a concrete index: with category `other`, the document of
category `foo` is excluded although it scores 15 for `hello`. -/
theorem category_filter_exact_witness :
    (js "other" ≠ [] ∧
      (⟨none, none, some (js "other"), none, none⟩ : SearchOptions).category =
        some (js "other")) ∧
    ((∀ r ∈ (searchKnowledgeBase toLowerCase
          [fileInfo (js "foo/bar.md") (js "# Hello\nTag: #x #y\nCategory: Z\nworld") 0,
            fileInfo (js "other/a.md") (js "hello there") 1]
          (js "hello") ⟨none, none, some (js "other"), none, none⟩).results,
        r.file.category = js "other") ∧
      (∀ file, file.category ≠ js "other" →
        ∀ r ∈ sortedResults toLowerCase
          [fileInfo (js "foo/bar.md") (js "# Hello\nTag: #x #y\nCategory: Z\nworld") 0,
            fileInfo (js "other/a.md") (js "hello there") 1]
          (js "hello") ⟨none, none, some (js "other"), none, none⟩, r.file ≠ file)) :=
  ⟨⟨by decide, rfl⟩,
    category_filter_exact toLowerCase _ (js "hello") ⟨none, none, some (js "other"), none, none⟩
      (js "other") (by decide) rfl⟩

theorem hasMatchingTag_iff (lower : JSString → JSString) (tags : List JSString)
    (file : FileInfo) :
    hasMatchingTag lower tags file = true ↔
      ∃ fileTag ∈ file.tags, ∃ tag ∈ tags, lower tag <:+: lower fileTag := by
  simp only [hasMatchingTag, List.any_eq_true, includes_iff]
  constructor
  · rintro ⟨tag, ht, fileTag, hf, h⟩
    exact ⟨fileTag, hf, tag, ht, h⟩
  · rintro ⟨fileTag, hf, tag, ht, h⟩
    exact ⟨tag, ht, fileTag, hf, h⟩

/-- C6: with a non-empty `options.tags`, a document passes the tag filter exactly
when one of its tags, lower-cased, contains one of the option tags, lower-cased,
as a substring; with an empty or absent `options.tags` every document passes; and
every returned result has passed the filter. -/
theorem tag_filter_iff (lower : JSString → JSString) (options : SearchOptions)
    (file : FileInfo) :
    (tagsExclude lower (options.tags.getD []) file = false ↔
        (options.tags = none ∨ options.tags = some [] ∨
          ∃ fileTag ∈ file.tags, ∃ tag ∈ options.tags.getD [],
            lower tag <:+: lower fileTag)) ∧
      (options.tags.getD [] ≠ [] →
        (tagsExclude lower (options.tags.getD []) file = false ↔
          ∃ fileTag ∈ file.tags, ∃ tag ∈ options.tags.getD [],
            lower tag <:+: lower fileTag)) ∧
      (∀ (fileIndex : List FileInfo) (query : JSString),
        ∀ r ∈ (searchKnowledgeBase lower fileIndex query options).results,
          tagsExclude lower (options.tags.getD []) r.file = false) := by
  have hgen : ∀ tags : List JSString, tagsExclude lower tags file = false ↔
      (tags = [] ∨ ∃ fileTag ∈ file.tags, ∃ tag ∈ tags, lower tag <:+: lower fileTag) := by
    intro tags
    rw [← hasMatchingTag_iff]
    cases tags with
    | nil => simp [tagsExclude]
    | cons t ts => simp [tagsExclude]
  refine ⟨?_, ?_, ?_⟩
  · rw [hgen]
    cases h : options.tags with
    | none => simp
    | some ts => simp
  · intro hne
    rw [hgen]
    simp [hne]
  · intro fileIndex query r hr
    exact (mem_collectResults lower fileIndex query options r
      (mem_results lower fileIndex query options r hr)).2.2.1

/-! ## Content matches -/

theorem foldl_contentMatchStep (lower : JSString → JSString) (queryLower : JSString) :
    ∀ (l : List (Nat × JSString)) (acc : List Match),
      l.foldl (contentMatchStep lower queryLower) acc =
        acc ++ (l.filter (fun e => decide (queryLower <:+: lower e.2))).map
          (fun e => { type := MatchType.content, text := trim e.2, line := some (e.1 + 1) }) := by
  intro l
  induction l with
  | nil => intro acc; simp
  | cons e l ih =>
    intro acc
    rw [List.foldl_cons, ih]
    by_cases h : queryLower <:+: lower e.2
    · simp [contentMatchStep, includes_eq_decide, h]
    · simp [contentMatchStep, includes_eq_decide, h]

theorem enumFrom_pairwise_lt {α : Type} :
    ∀ (l : List α) (n : Nat), (l.enumFrom n).Pairwise (fun a b => a.1 < b.1) := by
  intro l
  induction l with
  | nil => intro n; simp
  | cons x l ih =>
    intro n
    rw [List.enumFrom_cons, List.pairwise_cons]
    refine ⟨?_, ih (n + 1)⟩
    intro e he
    have := List.le_fst_of_mem_enumFrom he
    simp only
    omega

/-- C7: `extractContentMatches` returns the entries of the first three lines (in
line order, lines being `content.split('\n')`) whose lower-cased text contains
the lower-cased query: at most 3 entries, all of type `content`, each with the
trimmed text of its line and the 1-based number of that line, in increasing line
order. -/
theorem extractContentMatches_first_three_lines (lower : JSString → JSString)
    (content query : JSString) :
    extractContentMatches lower content query =
        (((split 10 content).enum.filter
          (fun e => decide (lower query <:+: lower e.2))).take 3).map
          (fun e => { type := MatchType.content, text := trim e.2, line := some (e.1 + 1) }) ∧
      (extractContentMatches lower content query).length =
        min 3 ((split 10 content).countP (fun line => decide (lower query <:+: lower line))) ∧
      (extractContentMatches lower content query).length ≤ 3 ∧
      (∀ m ∈ extractContentMatches lower content query,
        m.type = MatchType.content ∧
          ∃ n line, (split 10 content)[n]? = some line ∧ lower query <:+: lower line ∧
            m.text = trim line ∧ m.line = some (n + 1)) ∧
      (extractContentMatches lower content query).Pairwise
        (fun a b => ∃ i j, a.line = some i ∧ b.line = some j ∧ i < j) := by
  have heq : extractContentMatches lower content query =
      (((split 10 content).enum.filter
        (fun e => decide (lower query <:+: lower e.2))).take 3).map
        (fun e => { type := MatchType.content, text := trim e.2, line := some (e.1 + 1) }) := by
    simp only [extractContentMatches, slice, foldl_contentMatchStep, List.nil_append,
      List.drop_zero, List.map_take]
  have hcount : ∀ (l : List JSString) (n : Nat),
      ((l.enumFrom n).filter (fun e => decide (lower query <:+: lower e.2))).length =
        l.countP (fun line => decide (lower query <:+: lower line)) := by
    intro l
    induction l with
    | nil => intro n; simp
    | cons x l ih =>
      intro n
      rw [List.enumFrom_cons, List.filter_cons, List.countP_cons]
      by_cases h : lower query <:+: lower x
      · simp [h, ih]
      · simp [h, ih]
  refine ⟨heq, ?_, ?_, ?_, ?_⟩
  · rw [heq, List.length_map, List.length_take, List.enum, hcount]
  · rw [heq, List.length_map, List.length_take]
    exact Nat.min_le_left _ _
  · intro m hm
    rw [heq, List.mem_map] at hm
    obtain ⟨e, he, rfl⟩ := hm
    have he' := List.mem_filter.mp (List.mem_of_mem_take he)
    refine ⟨rfl, e.1, e.2, List.mem_enum_iff_getElem?.mp he'.1, ?_, rfl, rfl⟩
    simpa using he'.2
  · rw [heq, List.pairwise_map]
    have hp : (((split 10 content).enum.filter
        (fun e => decide (lower query <:+: lower e.2))).take 3).Pairwise
        (fun a b => a.1 < b.1) :=
      ((enumFrom_pairwise_lt (split 10 content) 0).sublist
        (List.filter_sublist _)).sublist (List.take_sublist _ _)
    refine hp.imp ?_
    intro a b hab
    exact ⟨a.1 + 1, b.1 + 1, rfl, rfl, by omega⟩

/-! ## Excerpts -/

theorem indexOf_eq_neg_one_iff (s t : JSString) : indexOf s t = -1 ↔ ¬ t <:+: s :=
  indexOfFrom_eq_neg_one_iff t s 0

theorem indexOf_found (s t : JSString) (h : indexOf s t ≠ -1) :
    ∃ k : Nat, indexOf s t = (k : Int) ∧ t <+: s.drop k ∧ k + t.length ≤ s.length ∧
      ∀ j, j < k → ¬ t <+: s.drop j := by
  obtain ⟨k, hk, hrest⟩ := indexOfFrom_found t s 0 h
  refine ⟨k, ?_, hrest⟩
  unfold indexOf
  rw [hk]
  simp

theorem substring_of_le (s : JSString) (a b : Nat) (hb : b ≤ s.length)
    (hab : a ≤ b ∨ b = s.length) : substring s a b = (s.take b).drop a := by
  unfold substring
  simp only [Int.toNat_ofNat]
  rcases Nat.lt_or_ge b a with hlt | hge
  · have hbl : b = s.length := by
      rcases hab with h | h
      · omega
      · exact h
    subst hbl
    have h1 : min a s.length = s.length := by omega
    simp [h1]
    omega
  · have h1 : min a s.length = a := by omega
    have h2 : min b s.length = b := by omega
    rw [h1, h2, Nat.max_eq_right hge, Nat.min_eq_left hge]

/-- When the lower-cased query occurs in the lower-cased content, at first index
`k`, the excerpt is the slice `[start, stop)` of the content with
`start = max(0, k - 100)` and `stop = min(|content|, k + |query| + 100)`, preceded
by the ellipsis marker exactly when `start > 0` and followed by it exactly when
`stop < |content|`. -/
theorem extractRelevantContent_found (lower : JSString → JSString) (content query : JSString)
    (maxLength k : Nat) (hk : indexOf (lower content) (lower query) = (k : Int)) :
    extractRelevantContent lower content query maxLength =
      (if 0 < k - 100 then ellipsis else []) ++
        (content.take (min content.length (k + query.length + 100))).drop (k - 100) ++
        (if min content.length (k + query.length + 100) < content.length then ellipsis
          else []) := by
  have hne : ¬ ((k : Int) = -1) := by omega
  have hstart : max (0 : Int) ((k : Int) - 100) = ((k - 100 : Nat) : Int) := by omega
  have hstop : min (content.length : Int) ((k : Int) + (query.length : Int) + 100) =
      ((min content.length (k + query.length + 100) : Nat) : Int) := by omega
  simp only [extractRelevantContent, hk, hne, if_false, hstart, hstop]
  rw [substring_of_le content (k - 100) (min content.length (k + query.length + 100))
    (Nat.min_le_left _ _) (by omega)]
  have e1 : (((k - 100 : Nat) : Int) > 0) ↔ 0 < k - 100 := by omega
  have e2 : (((min content.length (k + query.length + 100) : Nat) : Int) <
      (content.length : Int)) ↔ min content.length (k + query.length + 100) < content.length := by
    omega
  simp only [e1, e2]
  split_ifs <;> simp

theorem extractRelevantContent_absent (lower : JSString → JSString) (content query : JSString)
    (maxLength : Nat) (h : indexOf (lower content) (lower query) = -1) :
    extractRelevantContent lower content query maxLength =
      content.take (min maxLength content.length) ++ ellipsis := by
  simp only [extractRelevantContent, h, if_true]
  have : substring content 0 (maxLength : Int) = content.take (min maxLength content.length) := by
    simp [substring]
  rw [this]

/-- When lower-casing changes neither the length of the content nor that of the
query, the slice `[start, stop)` of `extractRelevantContent_found` covers the
positions `k .. k + |query| - 1` of the first occurrence. -/
theorem extractRelevantContent_window_covers (lower : JSString → JSString)
    (content query : JSString) (k : Nat)
    (hk : indexOf (lower content) (lower query) = (k : Int))
    (hc : (lower content).length = content.length)
    (hq : (lower query).length = query.length) :
    k - 100 ≤ k ∧ k + query.length ≤ min content.length (k + query.length + 100) := by
  have hne : indexOf (lower content) (lower query) ≠ -1 := by omega
  obtain ⟨k', hk', -, hlen, -⟩ := indexOf_found _ _ hne
  have : k' = k := by omega
  subst this
  omega

set_option maxRecDepth 100000 in
/-- C8 at the content made of 101 capital I with dot above (U+0130) followed by
`x`, and the query `x`: the query occurs, at index 101 of the content, but the
index 202 found in the lower-cased content (where every U+0130 has become two
code units) is applied to the content itself, the window is empty, and the
excerpt is the bare ellipsis marker, which does not contain the query. -/
theorem extractRelevantContent_misses_occurrence :
    includes (toLowerCase (List.replicate 101 0x130 ++ js "x")) (toLowerCase (js "x")) = true ∧
      indexOf (List.replicate 101 0x130 ++ js "x") (js "x") = 101 ∧
      indexOf (toLowerCase (List.replicate 101 0x130 ++ js "x")) (toLowerCase (js "x")) = 202 ∧
      extractRelevantContent toLowerCase (List.replicate 101 0x130 ++ js "x") (js "x") 300 =
        js "..." ∧
      includes (toLowerCase (js "...")) (toLowerCase (js "x")) = false := by
  decide

set_option maxRecDepth 100000 in
/-- C9, as stated, fails for a query of 307 characters that is the whole content:
the excerpt is the whole content, 307 characters, more than 300 plus the two
markers. -/
theorem excerpt_length_counterexample :
    ¬ ((extractRelevantContent toLowerCase (List.replicate 307 97) (List.replicate 307 97)
        300).length ≤ 300 + 2 * ellipsis.length) := by
  decide

/-- C9 (amended): the excerpt is no longer than `max(300, |query| + 200)`
characters plus the two ellipsis markers, whatever the length of the content; in
particular no longer than 300 plus the two markers when the query has at most
100 characters. -/
theorem excerpt_length_bound (lower : JSString → JSString) (content query : JSString) :
    (extractRelevantContent lower content query 300).length ≤
        max 300 (query.length + 200) + 2 * ellipsis.length ∧
      (query.length ≤ 100 →
        (extractRelevantContent lower content query 300).length ≤
          300 + 2 * ellipsis.length) := by
  have hmain : (extractRelevantContent lower content query 300).length ≤
      max 300 (query.length + 200) + 2 * ellipsis.length := by
    by_cases h : indexOf (lower content) (lower query) = -1
    · rw [extractRelevantContent_absent lower content query 300 h]
      simp only [List.length_append, List.length_take, ellipsis, List.length_cons,
        List.length_nil]
      omega
    · obtain ⟨k, hk, -⟩ := indexOf_found _ _ h
      rw [extractRelevantContent_found lower content query 300 k hk]
      simp only [List.length_append, List.length_drop, List.length_take, ellipsis]
      split_ifs <;> simp only [List.length_cons, List.length_nil] <;> omega
  refine ⟨hmain, ?_⟩
  intro hq
  have : max 300 (query.length + 200) = 300 := by omega
  rw [this] at hmain
  exact hmain

/-- C10, as stated, fails on the content `abc` and the query `z`: the excerpt is
`abc...`, not `abc`. -/
theorem excerpt_absent_counterexample :
    indexOf (toLowerCase (js "abc")) (toLowerCase (js "z")) = -1 ∧
      extractRelevantContent toLowerCase (js "abc") (js "z") 300 = js "abc..." ∧
      extractRelevantContent toLowerCase (js "abc") (js "z") 300 ≠
        (js "abc").take (min 300 (js "abc").length) := by
  decide

/-- C10 (amended): when the lower-cased query does not occur in the lower-cased
content, the excerpt is the first `min(300, |content|)` characters of the
content followed by the ellipsis marker `...`. -/
theorem excerpt_absent_is_prefix_then_ellipsis (lower : JSString → JSString)
    (content query : JSString) (h : ¬ lower query <:+: lower content) :
    extractRelevantContent lower content query 300 =
      content.take (min 300 content.length) ++ js "..." :=
  extractRelevantContent_absent lower content query 300
    ((indexOf_eq_neg_one_iff _ _).mpr h)

/-- The amended C10 at the content `abc` and the query `z`. -/
theorem excerpt_absent_is_prefix_then_ellipsis_witness :
    ¬ toLowerCase (js "z") <:+: toLowerCase (js "abc") ∧
      extractRelevantContent toLowerCase (js "abc") (js "z") 300 =
        (js "abc").take (min 300 (js "abc").length) ++ js "..." :=
  ⟨by decide, excerpt_absent_is_prefix_then_ellipsis toLowerCase (js "abc") (js "z") (by decide)⟩

/-! ## Metadata extraction -/

/-- C11 at the content `# \nbody` and the file name `a.md`: the first line is
`# `, a `#` followed by whitespace with no text after it on that line, and the
second line does not start with `#`; `\s+` of the pattern runs over the line
break and the title is `body`, the text of the second line (neither the empty
trailing text of the first line nor the file name without `.md`).  A heading
line with text gives that text, trimmed, and a content without a heading line
gives the file name without `.md`. -/
theorem extractTitle_crosses_line_break :
    split 10 (js "# \nbody") = [js "# ", js "body"] ∧
      extractTitle (js "# \nbody") (js "a.md") = js "body" ∧
      extractTitle (js "# \nbody") (js "a.md") ≠ js "" ∧
      extractTitle (js "# \nbody") (js "a.md") ≠ js "a" ∧
      extractTitle (js "intro\n#  Hello world \nbody") (js "a.md") = js "Hello world" ∧
      extractTitle (js "## not a title\nbody") (js "a.md") = js "a" := by
  decide

/-- C12 at the content `#  ` (a `#` and two spaces) and the file name `a.md`:
`\s+` gives back the second space to `(.+)`, the captured text is one space and
`trim` makes the title empty; so does the content `#  \n`; and without a
heading, the file name `.md` gives the empty title as well. -/
theorem extractTitle_empty_title :
    extractTitle (js "#  ") (js "a.md") = js "" ∧
      extractTitle (js "#  \n") (js "a.md") = js "" ∧
      ((js ".md").isSuffixOf (js ".md") = true ∧ extractTitle (js "") (js ".md") = js "") := by
  decide

/-- C13 at the content `Tag:\n#x`: the line `Tag:` has an empty remainder and
there is no `Category:` line, but `\s*` of the pattern runs over the line break
and the token of the second line is returned; in the same way the value of an
empty `Category:` line is taken from the next line.  On the content of the
scenario the tags are `x`, `y`, `Z`. -/
theorem extractTags_crosses_line_break :
    split 10 (js "Tag:\n#x") = [js "Tag:", js "#x"] ∧
      extractTags (js "Tag:\n#x") = [js "x"] ∧
      extractTags (js "Category:\nbody") = [js "body"] ∧
      extractTags (js "# Hello\nTag: #x #y\nCategory: Z\nworld") = [js "x", js "y", js "Z"] := by
  decide

theorem split_headD (sep : Nat) :
    ∀ s : JSString, (split sep s).headD [] = s.takeWhile (fun c => c != sep) := by
  intro s
  induction s with
  | nil => simp [split]
  | cons c cs ih =>
    unfold split
    by_cases hc : c = sep
    · simp [hc]
    · rw [if_neg hc]
      cases h : split sep cs with
      | nil => exact absurd h (split_ne_nil sep cs)
      | cons l ls =>
        rw [h] at ih
        simp only [List.headD_cons] at ih
        simp [List.takeWhile_cons, hc, ih]

theorem split_length (sep : Nat) :
    ∀ s : JSString, (split sep s).length = s.count sep + 1 := by
  intro s
  induction s with
  | nil => simp [split]
  | cons c cs ih =>
    unfold split
    by_cases hc : c = sep
    · simp [hc, ih]
    · rw [if_neg hc]
      cases h : split sep cs with
      | nil => exact absurd h (split_ne_nil sep cs)
      | cons l ls =>
        rw [h] at ih
        have hne : (c == sep) = false := by simpa using hc
        simp only [List.length_cons] at ih ⊢
        rw [List.count_cons, hne]
        simpa using ih

/-- C14: `extractCategory` returns the first segment of the path when the path
has at least two segments delimited by the separator, which is when the
separator occurs in it, and the sentinel `未分类` otherwise; the category of
`foo/bar.md` is `foo`. -/
theorem extractCategory_first_segment_or_sentinel (filePath : JSString) :
    (2 ≤ (split pathSep filePath).length ↔ pathSep ∈ filePath) ∧
      (2 ≤ (split pathSep filePath).length →
        extractCategory filePath = (split pathSep filePath).headD [] ∧
          extractCategory filePath = filePath.takeWhile (fun c => c != pathSep)) ∧
      (¬ 2 ≤ (split pathSep filePath).length → extractCategory filePath = js "未分类") ∧
      extractCategory (js "foo/bar.md") = js "foo" ∧
      extractCategory (js "bar.md") = js "未分类" := by
  refine ⟨?_, ?_, ?_, by decide, by decide⟩
  · rw [split_length, ← List.count_pos_iff]
    omega
  · intro h
    have h' : (split pathSep filePath).length ≥ 2 := h
    refine ⟨?_, ?_⟩
    · simp [extractCategory, h']
    · rw [← split_headD]
      simp [extractCategory, h']
  · intro h
    have h' : ¬ (split pathSep filePath).length ≥ 2 := h
    simp [extractCategory, h']

/-! ## The index store -/

theorem mapHas_mapDelete (m : Cache) (key : JSString) : mapHas (mapDelete m key) key = false := by
  simp [mapHas, mapDelete]

theorem mapGet_mapDelete_of_ne (m : Cache) (key other : JSString) (h : other ≠ key) :
    mapGet (mapDelete m key) other = mapGet m other := by
  unfold mapGet mapDelete
  congr 1
  induction m with
  | nil => rfl
  | cons e m ih =>
    by_cases he : e.1 = key
    · have h1 : (e.1 != key) = false := by simpa using he
      have h2 : (e.1 == other) = false := by
        rw [he]
        simpa using fun h' => h h'.symm
      rw [List.filter_cons, h1, List.find?_cons, h2]
      simpa using ih
    · have h1 : (e.1 != key) = true := by simpa using he
      rw [List.filter_cons, h1]
      simp only [if_true, List.find?_cons]
      cases (e.1 == other) with
      | true => rfl
      | false => simpa using ih

theorem mapGet_mapSet_of_ne (m : Cache) (key other : JSString) (value : FileInfo)
    (h : other ≠ key) : mapGet (mapSet m key value) other = mapGet m other := by
  have hko : (key == other) = false := by simpa using fun h' => h h'.symm
  unfold mapSet
  split_ifs with hhas
  · unfold mapGet
    congr 1
    clear hhas
    induction m with
    | nil => rfl
    | cons e m ih =>
      simp only [List.map_cons, List.find?_cons]
      by_cases he : e.1 = key
      · have h1 : (e.1 == key) = true := by simpa using he
        have h2 : (e.1 == other) = false := by
          rw [he]
          exact hko
        simp only [h1, if_true, hko, h2]
        exact ih
      · have h1 : (e.1 == key) = false := by simpa using he
        simp only [h1, Bool.false_eq_true, if_false]
        cases (e.1 == other) with
        | true => rfl
        | false => exact ih
  · unfold mapGet
    rw [List.find?_append]
    cases hf : List.find? (fun e => e.1 == other) m with
    | some e => rfl
    | none => simp [List.find?_cons, hko]

theorem mapHas_mapSet (m : Cache) (key : JSString) (value : FileInfo) :
    mapHas (mapSet m key value) key = true := by
  unfold mapSet
  split_ifs with hhas
  · unfold mapHas at hhas ⊢
    rw [List.any_eq_true] at hhas ⊢
    obtain ⟨e, he, hk⟩ := hhas
    refine ⟨(key, value), ?_, by simp⟩
    rw [List.mem_map]
    exact ⟨e, he, by simp [hk]⟩
  · simp [mapHas]

theorem mapGet_isSome_of_mapHas (m : Cache) (key : JSString) (h : mapHas m key = true) :
    (mapGet m key).isSome = true := by
  unfold mapHas at h
  unfold mapGet
  rw [List.any_eq_true] at h
  obtain ⟨e, he, hk⟩ := h
  cases hf : List.find? (fun e => e.1 == key) m with
  | some e' => rfl
  | none =>
    rw [List.find?_eq_none] at hf
    exact absurd hk (hf e he)

theorem mapHas_eq_isSome (m : Cache) (key : JSString) :
    mapHas m key = (mapGet m key).isSome := by
  cases h : mapHas m key with
  | true => exact (mapGet_isSome_of_mapHas _ _ h).symm
  | false =>
    unfold mapHas at h
    unfold mapGet
    have hnone : List.find? (fun e => e.1 == key) m = none := by
      rw [List.find?_eq_none]
      intro e he hk
      have hany : m.any (fun e => e.1 == key) = true := List.any_eq_true.mpr ⟨e, he, hk⟩
      rw [h] at hany
      exact absurd hany (by decide)
    rw [hnone]
    rfl

/-! ## The file lookup -/

theorem uriTokens_of_no_percent :
    ∀ s : JSString, 37 ∉ s → uriTokens s = some (s.map UriToken.unit) := by
  intro s
  induction s with
  | nil => intro _; rfl
  | cons c s ih =>
    intro h
    have hc : c ≠ 37 := fun hc => h (hc ▸ List.mem_cons_self _ _)
    have hs : 37 ∉ s := fun hs => h (List.mem_cons_of_mem _ hs)
    have hstep : uriTokens (c :: s) =
        (match uriTokens s with
          | some tokens => some (UriToken.unit c :: tokens)
          | none => none) := by
      conv_lhs => unfold uriTokens
      simp only [if_neg hc]
    rw [hstep, ih hs]
    rfl

theorem decodeTokens_units : ∀ s : JSString, decodeTokens (s.map UriToken.unit) = some s := by
  intro s
  induction s with
  | nil => rfl
  | cons c s ih =>
    have hstep : decodeTokens (UriToken.unit c :: s.map UriToken.unit) =
        (match decodeTokens (s.map UriToken.unit) with
          | some t => some (c :: t)
          | none => none) := rfl
    rw [List.map_cons, hstep, ih]

/-- A string without `%` is decoded to itself. -/
theorem decodeURIComponent_of_no_percent (s : JSString) (h : 37 ∉ s) :
    decodeURIComponent s = some s := by
  simp [decodeURIComponent, uriTokens_of_no_percent s h, decodeTokens_units]

theorem getFileHandler_undecodable (st : Store) (param : JSString)
    (h : decodeURIComponent param = none) :
    getFileHandler st param =
      { status := 500, body := Body.error (js "获取文件详情失败") none } := by
  simp [getFileHandler, h]

theorem getFileHandler_absent (st : Store) (param filePath : JSString)
    (h : decodeURIComponent param = some filePath)
    (habsent : mapHas st.knowledgeCache filePath = false) :
    getFileHandler st param = { status := 404, body := Body.error (js "文件不存在") none } := by
  simp [getFileHandler, h, habsent]

theorem getFileHandler_present (st : Store) (param filePath : JSString) (info : FileInfo)
    (h : decodeURIComponent param = some filePath)
    (hget : mapGet st.knowledgeCache filePath = some info) :
    getFileHandler st param = { status := 200, body := Body.file info } := by
  have hhas : mapHas st.knowledgeCache filePath = true := by
    rw [mapHas_eq_isSome, hget]
    rfl
  simp [getFileHandler, h, hhas, hget]

theorem getFileHandler_status_404_iff (st : Store) (param filePath : JSString)
    (h : decodeURIComponent param = some filePath) :
    (getFileHandler st param).status = 404 ↔ mapHas st.knowledgeCache filePath = false := by
  cases hh : mapHas st.knowledgeCache filePath with
  | false => simp [getFileHandler_absent st param filePath h hh]
  | true =>
    have hsome := mapGet_isSome_of_mapHas _ _ hh
    cases hg : mapGet st.knowledgeCache filePath with
    | none =>
      rw [hg] at hsome
      simp at hsome
    | some info => simp [getFileHandler_present st param filePath info h hg]

theorem getFileHandler_congr (st st' : Store) (param filePath : JSString)
    (h : decodeURIComponent param = some filePath)
    (hget : mapGet st.knowledgeCache filePath = mapGet st'.knowledgeCache filePath) :
    getFileHandler st param = getFileHandler st' param := by
  unfold getFileHandler
  rw [h]
  simp only [mapHas_eq_isSome, hget]

/-- C15: `indexFile` pushes the record on `fileIndex` whatever the array holds,
so every successful run for the path `P` adds one document of path `P` to those
already there; after an `add` and a `change` of `notes/a.md`, starting from the
empty stores, `fileIndex` holds two documents of that path (the Map
`knowledgeCache` holds one), and a search that matches the file returns both. -/
theorem indexFile_adds_duplicate :
    (∀ (st : Store) (P content : JSString) (mtime : Int),
      ((indexFile st P (some (content, mtime))).fileIndex.filter
          (fun file => file.path == P)).length =
        (st.fileIndex.filter (fun file => file.path == P)).length + 1) ∧
    ((watcherChange (watcherAdd emptyStore (js "notes/a.md") (some (js "# One", 1)))
        (js "notes/a.md") (some (js "# One more", 2))).fileIndex.map (fun file => file.path) =
      [js "notes/a.md", js "notes/a.md"]) ∧
    ((watcherChange (watcherAdd emptyStore (js "notes/a.md") (some (js "# One", 1)))
        (js "notes/a.md") (some (js "# One more", 2))).knowledgeCache.map (fun e => e.1) =
      [js "notes/a.md"]) ∧
    (searchKnowledgeBase toLowerCase
        (watcherChange (watcherAdd emptyStore (js "notes/a.md") (some (js "# One", 1)))
          (js "notes/a.md") (some (js "# One more", 2))).fileIndex
        (js "one") ⟨none, none, none, none, none⟩).total = 2 := by
  refine ⟨?_, by decide, by decide, by decide⟩
  intro st P content mtime
  simp [indexFile, fileInfo, List.filter_append]

/-- C16, as stated, fails for the path `notes/100%.md`: after its `add` and its
`unlink` the stores hold no entry for it, but the lookup of that path is
answered 500, not 404, because `decodeURIComponent` throws on `%.m`. -/
theorem lookup_of_removed_path_counterexample :
    mapHas (watcherUnlink (watcherAdd emptyStore (js "notes/100%.md") (some (js "# Sale", 1)))
        (js "notes/100%.md")).knowledgeCache (js "notes/100%.md") = false ∧
      decodeURIComponent (js "notes/100%.md") = none ∧
      (getFileHandler (watcherUnlink
          (watcherAdd emptyStore (js "notes/100%.md") (some (js "# Sale", 1)))
          (js "notes/100%.md")) (js "notes/100%.md")).status = 500 ∧
      (getFileHandler (watcherUnlink
          (watcherAdd emptyStore (js "notes/100%.md") (some (js "# Sale", 1)))
          (js "notes/100%.md")) (js "notes/100%.md")).status ≠ 404 := by
  decide

/-- C16 (amended): an `add` of the path `P` followed by an `unlink` of `P` leaves
no document of path `P` in `fileIndex` and no key `P` in `knowledgeCache`, so
that the file lookup answers 404 to every request path that
`decodeURIComponent` decodes to `P`, and to `P` itself when it has no `%`; the
removal changes neither the documents of another path nor what the lookup of
another path finds, and the two events together leave them as they were before
the `add`. -/
theorem add_then_unlink_absent (st : Store) (P : JSString) (read : Option (JSString × Int)) :
    (∀ file ∈ (watcherUnlink (watcherAdd st P read) P).fileIndex, file.path ≠ P) ∧
      mapHas (watcherUnlink (watcherAdd st P read) P).knowledgeCache P = false ∧
      mapGet (watcherUnlink (watcherAdd st P read) P).knowledgeCache P = none ∧
      (∀ param, decodeURIComponent param = some P →
        getFileHandler (watcherUnlink (watcherAdd st P read) P) param =
          { status := 404, body := Body.error (js "文件不存在") none }) ∧
      (37 ∉ P → (getFileHandler (watcherUnlink (watcherAdd st P read) P) P).status = 404) ∧
      (∀ Q, Q ≠ P →
        (watcherUnlink (watcherAdd st P read) P).fileIndex.filter (fun file => file.path == Q) =
            (watcherAdd st P read).fileIndex.filter (fun file => file.path == Q) ∧
          mapGet (watcherUnlink (watcherAdd st P read) P).knowledgeCache Q =
            mapGet (watcherAdd st P read).knowledgeCache Q ∧
          ∀ param, decodeURIComponent param = some Q →
            getFileHandler (watcherUnlink (watcherAdd st P read) P) param =
              getFileHandler (watcherAdd st P read) param) ∧
      (∀ Q, Q ≠ P →
        (watcherUnlink (watcherAdd st P read) P).fileIndex.filter (fun file => file.path == Q) =
            st.fileIndex.filter (fun file => file.path == Q) ∧
          mapGet (watcherUnlink (watcherAdd st P read) P).knowledgeCache Q =
            mapGet st.knowledgeCache Q) := by
  have hhas : mapHas (watcherUnlink (watcherAdd st P read) P).knowledgeCache P = false :=
    mapHas_mapDelete _ P
  have hget : ∀ Q, Q ≠ P →
      mapGet (watcherUnlink (watcherAdd st P read) P).knowledgeCache Q =
        mapGet (watcherAdd st P read).knowledgeCache Q :=
    fun Q hQ => mapGet_mapDelete_of_ne _ P Q hQ
  have hfilter : ∀ Q, Q ≠ P →
      (watcherUnlink (watcherAdd st P read) P).fileIndex.filter (fun file => file.path == Q) =
        (watcherAdd st P read).fileIndex.filter (fun file => file.path == Q) := by
    intro Q hQ
    simp only [watcherUnlink, List.filter_filter]
    congr 1
    funext file
    by_cases hf : file.path = Q
    · have : file.path ≠ P := fun h => hQ (hf ▸ h)
      simp [hf, hQ]
    · simp [hf]
  refine ⟨?_, hhas, ?_, ?_, ?_, ?_, ?_⟩
  · intro file hfile
    simp only [watcherUnlink, List.mem_filter, bne_iff_ne, ne_eq] at hfile
    exact hfile.2
  · have h := mapHas_eq_isSome (watcherUnlink (watcherAdd st P read) P).knowledgeCache P
    rw [hhas] at h
    cases hg : mapGet (watcherUnlink (watcherAdd st P read) P).knowledgeCache P with
    | none => rfl
    | some v =>
      rw [hg] at h
      simp at h
  · intro param hparam
    exact getFileHandler_absent _ param P hparam hhas
  · intro hP
    rw [getFileHandler_absent _ P P (decodeURIComponent_of_no_percent P hP) hhas]
  · intro Q hQ
    refine ⟨hfilter Q hQ, hget Q hQ, ?_⟩
    intro param hparam
    exact getFileHandler_congr _ _ param Q hparam (hget Q hQ)
  · intro Q hQ
    rw [hfilter Q hQ, hget Q hQ]
    cases read with
    | none => exact ⟨rfl, rfl⟩
    | some r =>
      obtain ⟨content, mtime⟩ := r
      refine ⟨?_, ?_⟩
      · have hPQ : (P == Q) = false := by simpa using fun h => hQ h.symm
        simp [watcherAdd, indexFile, fileInfo, List.filter_append, hPQ]
      · exact mapGet_mapSet_of_ne _ P Q _ hQ

/-! ## The directory scan -/

mutual

theorem scanEntry_of_readable :
    ∀ (e : Entry) (st : Store) (dir : JSString), entryReadable e = true →
      scanEntry st dir e =
        Outcome.done ((entryNotes dir e).foldl (fun st f => indexFile st f.1 f.2) st)
  | Entry.file name read, st, dir, _ => by
    unfold scanEntry entryNotes
    split_ifs <;> rfl
  | Entry.dir name readable entries, st, dir, h => by
    unfold entryReadable at h
    rw [Bool.and_eq_true] at h
    unfold scanEntry entryNotes
    rw [if_pos h.1]
    exact scanEntries_of_readable entries st (joinPath dir name) h.2
  | Entry.dangling name, st, dir, h => by
    unfold entryReadable at h
    exact absurd h (by decide)

theorem scanEntries_of_readable :
    ∀ (es : List Entry) (st : Store) (dir : JSString), entriesReadable es = true →
      scanEntries st dir es =
        Outcome.done ((entriesNotes dir es).foldl (fun st f => indexFile st f.1 f.2) st)
  | [], st, dir, _ => by
    unfold scanEntries entriesNotes
    rfl
  | e :: es, st, dir, h => by
    unfold entriesReadable at h
    rw [Bool.and_eq_true] at h
    unfold scanEntries entriesNotes
    rw [scanEntry_of_readable e st dir h.1, List.foldl_append]
    exact scanEntries_of_readable es _ dir h.2

end

mutual

theorem entryNotes_readable :
    ∀ (e : Entry) (dir : JSString), entryReadable e = true →
      ∀ f ∈ entryNotes dir e, f.2.isSome = true
  | Entry.file name read, dir, h => by
    intro f hf
    unfold entryReadable at h
    unfold entryNotes at hf
    split_ifs at hf
    · rw [List.mem_singleton] at hf
      rw [hf]
      exact h
    · simp at hf
  | Entry.dir name readable entries, dir, h => by
    intro f hf
    unfold entryReadable at h
    rw [Bool.and_eq_true] at h
    unfold entryNotes at hf
    exact entriesNotes_readable entries (joinPath dir name) h.2 f hf
  | Entry.dangling name, dir, h => by
    unfold entryReadable at h
    exact absurd h (by decide)

theorem entriesNotes_readable :
    ∀ (es : List Entry) (dir : JSString), entriesReadable es = true →
      ∀ f ∈ entriesNotes dir es, f.2.isSome = true
  | [], dir, _ => by
    intro f hf
    unfold entriesNotes at hf
    simp at hf
  | e :: es, dir, h => by
    intro f hf
    unfold entriesReadable at h
    rw [Bool.and_eq_true] at h
    unfold entriesNotes at hf
    rcases List.mem_append.mp hf with hf | hf
    · exact entryNotes_readable e dir h.1 f hf
    · exact entriesNotes_readable es dir h.2 f hf

end

theorem suffix_joinPath (dir name : JSString) : name <:+ joinPath dir name := by
  unfold joinPath
  split_ifs
  · exact List.suffix_refl _
  · exact List.suffix_append _ _

mutual

theorem entryNotes_suffix :
    ∀ (e : Entry) (dir : JSString), ∀ f ∈ entryNotes dir e, js ".md" <:+ f.1
  | Entry.file name read, dir => by
    intro f hf
    unfold entryNotes at hf
    split_ifs at hf with hmd
    · rw [List.mem_singleton] at hf
      rw [hf]
      exact (List.isSuffixOf_iff_suffix.mp hmd).trans (suffix_joinPath dir name)
    · simp at hf
  | Entry.dir name readable entries, dir => by
    intro f hf
    unfold entryNotes at hf
    exact entriesNotes_suffix entries (joinPath dir name) f hf
  | Entry.dangling name, dir => by
    intro f hf
    unfold entryNotes at hf
    simp at hf

theorem entriesNotes_suffix :
    ∀ (es : List Entry) (dir : JSString), ∀ f ∈ entriesNotes dir es, js ".md" <:+ f.1
  | [], dir => by
    intro f hf
    unfold entriesNotes at hf
    simp at hf
  | e :: es, dir => by
    intro f hf
    unfold entriesNotes at hf
    rcases List.mem_append.mp hf with hf | hf
    · exact entryNotes_suffix e dir f hf
    · exact entriesNotes_suffix es dir f hf

end

theorem foldl_indexFile_fileIndex :
    ∀ (notes : List (JSString × Option (JSString × Int))) (st : Store),
      (notes.foldl (fun st f => indexFile st f.1 f.2) st).fileIndex =
        st.fileIndex ++ notes.filterMap (fun f => f.2.map (fun r => fileInfo f.1 r.1 r.2)) := by
  intro notes
  induction notes with
  | nil => intro st; simp
  | cons f notes ih =>
    intro st
    rw [List.foldl_cons, ih]
    obtain ⟨p, read⟩ := f
    cases read with
    | none => simp [indexFile]
    | some r => simp [indexFile]

theorem filterMap_fileInfo_path :
    ∀ (notes : List (JSString × Option (JSString × Int))),
      (∀ f ∈ notes, f.2.isSome = true) →
        (notes.filterMap (fun f => f.2.map (fun r => fileInfo f.1 r.1 r.2))).map
          (fun file => file.path) = notes.map (fun f => f.1) := by
  intro notes
  induction notes with
  | nil => intro _; rfl
  | cons f notes ih =>
    intro h
    obtain ⟨p, read⟩ := f
    have hr := h (p, read) (List.mem_cons_self _ _)
    cases read with
    | none => simp at hr
    | some r =>
      have ih' := ih (fun f hf => h f (List.mem_cons_of_mem _ hf))
      simp only [List.filterMap_cons, Option.map_some', List.map_cons, ih']
      rfl

theorem mapHas_mapSet_eq (m : Cache) (key other : JSString) (value : FileInfo) :
    mapHas (mapSet m key value) other = (mapHas m other || key == other) := by
  by_cases hko : key = other
  · subst hko
    rw [mapHas_mapSet]
    simp
  · have hne : (key == other) = false := by simpa using hko
    rw [hne, Bool.or_false]
    unfold mapSet
    split_ifs with hhas
    · unfold mapHas
      clear hhas
      induction m with
      | nil => rfl
      | cons e m ih =>
        simp only [List.map_cons, List.any_cons, ih]
        congr 1
        by_cases he : e.1 = key
        · have h1 : (e.1 == key) = true := by simpa using he
          have h2 : (e.1 == other) = false := by
            rw [he]
            exact hne
          simp only [h1, if_true, hne, h2]
        · have h1 : (e.1 == key) = false := by simpa using he
          simp only [h1, Bool.false_eq_true, if_false]
    · simp [mapHas, List.any_append, hne]

theorem foldl_indexFile_mapHas :
    ∀ (notes : List (JSString × Option (JSString × Int))) (st : Store) (key : JSString),
      mapHas (notes.foldl (fun st f => indexFile st f.1 f.2) st).knowledgeCache key =
        (mapHas st.knowledgeCache key || notes.any (fun f => f.2.isSome && f.1 == key)) := by
  intro notes
  induction notes with
  | nil => intro st key; simp
  | cons f notes ih =>
    intro st key
    rw [List.foldl_cons, ih]
    obtain ⟨p, read⟩ := f
    cases read with
    | none => simp [indexFile]
    | some r => simp [indexFile, mapHas_mapSet_eq, Bool.or_assoc]

/-- C17: when every entry of the tree can be read, the scan started from the
empty stores completes, and `fileIndex` then holds one document for each file
whose name ends in `.md`, at any depth, in the order of the listings, built from
its relative path and its content, and nothing else: every indexed path ends in
`.md`; each note file is found by the file lookup; and a reindex answers with
their number. -/
theorem scan_indexes_every_note_file (name : JSString) (entries : List Entry)
    (h : entriesReadable entries = true) :
    ∃ st, initializeKnowledgeBase emptyStore (Entry.dir name true entries) = Outcome.done st ∧
      st.fileIndex =
        (entriesNotes [] entries).filterMap
          (fun f => f.2.map (fun r => fileInfo f.1 r.1 r.2)) ∧
      st.fileIndex.map (fun file => file.path) = (entriesNotes [] entries).map (fun f => f.1) ∧
      st.fileIndex.length = (entriesNotes [] entries).length ∧
      (∀ file ∈ st.fileIndex, js ".md" <:+ file.path) ∧
      (∀ f ∈ entriesNotes [] entries, mapHas st.knowledgeCache f.1 = true) ∧
      reindexHandler (Entry.dir name true entries) =
        (st, { status := 200
               body := Body.reindexed (js "重新索引完成") (entriesNotes [] entries).length }) := by
  have hscan := scanEntries_of_readable entries emptyStore [] h
  have hsome := entriesNotes_readable entries [] h
  have hidx := foldl_indexFile_fileIndex (entriesNotes [] entries) emptyStore
  have hpaths := filterMap_fileInfo_path (entriesNotes [] entries) hsome
  have hlen : ((entriesNotes [] entries).foldl (fun st f => indexFile st f.1 f.2)
      emptyStore).fileIndex.length = (entriesNotes [] entries).length := by
    have := congrArg List.length hpaths
    rw [List.length_map, List.length_map] at this
    rw [hidx]
    simpa [emptyStore] using this
  refine ⟨_, hscan, ?_, ?_, hlen, ?_, ?_, ?_⟩
  · rw [hidx]
    rfl
  · rw [hidx]
    exact hpaths
  · intro file hfile
    have hmem : file.path ∈ (entriesNotes [] entries).map (fun f => f.1) := by
      rw [← hpaths, ← List.nil_append (List.filterMap _ _)]
      change file.path ∈ List.map (fun file => file.path) (emptyStore.fileIndex ++ _)
      rw [← hidx]
      exact List.mem_map_of_mem _ hfile
    obtain ⟨f, hf, hfp⟩ := List.mem_map.mp hmem
    rw [← hfp]
    exact entriesNotes_suffix entries [] f hf
  · intro f hf
    rw [foldl_indexFile_mapHas, Bool.or_eq_true]
    right
    rw [List.any_eq_true]
    exact ⟨f, hf, by simp [hsome f hf]⟩
  · unfold reindexHandler
    rw [show initializeKnowledgeBase emptyStore (Entry.dir name true entries) =
      scanEntries emptyStore [] entries from rfl, hscan]
    simp only [hlen]

/-- C17 on a root with exactly three note files (`a.md`, `sub/b.md`,
`sub/deep/c.md`) and two other files: three documents, `filesIndexed = 3`. -/
theorem scan_indexes_every_note_file_witness :
    entriesReadable threeNoteTree = true ∧
      ((entriesNotes [] threeNoteTree).map (fun f => f.1) =
          [js "a.md", js "sub/b.md", js "sub/deep/c.md"] ∧
        (entriesNotes [] threeNoteTree).length = 3) ∧
      ∃ st, initializeKnowledgeBase emptyStore (Entry.dir [] true threeNoteTree) =
          Outcome.done st ∧
        st.fileIndex =
          (entriesNotes [] threeNoteTree).filterMap
            (fun f => f.2.map (fun r => fileInfo f.1 r.1 r.2)) ∧
        st.fileIndex.map (fun file => file.path) =
          (entriesNotes [] threeNoteTree).map (fun f => f.1) ∧
        st.fileIndex.length = (entriesNotes [] threeNoteTree).length ∧
        (∀ file ∈ st.fileIndex, js ".md" <:+ file.path) ∧
        (∀ f ∈ entriesNotes [] threeNoteTree, mapHas st.knowledgeCache f.1 = true) ∧
        reindexHandler (Entry.dir [] true threeNoteTree) =
          (st, { status := 200
                 body :=
                   Body.reindexed (js "重新索引完成") (entriesNotes [] threeNoteTree).length }) :=
  ⟨by decide, ⟨by decide, by decide⟩,
    scan_indexes_every_note_file [] threeNoteTree (by decide)⟩

/-- C18 on a root that lists `a.md`, then the directory `locked`, which cannot
be listed, then `b.md`: `fs.readdir` throws in the recursive `scanDir`, nothing
catches it, and the scan ends there with an error: `a.md` is indexed, `b.md`,
which lies outside the unreadable directory, is not, and a reindex answers 500. -/
theorem scan_aborts_at_unreadable_directory :
    (entriesNotes [] lockedTree).map (fun f => f.1) =
        [js "a.md", js "locked/x.md", js "b.md"] ∧
      initializeKnowledgeBase emptyStore (Entry.dir [] true lockedTree) =
        Outcome.threw (indexFile emptyStore (js "a.md") (some (js "# A", 1))) ∧
      (∀ st, initializeKnowledgeBase emptyStore (Entry.dir [] true lockedTree) ≠
        Outcome.done st) ∧
      (reindexHandler (Entry.dir [] true lockedTree)).1.fileIndex.map (fun file => file.path) =
        [js "a.md"] ∧
      (reindexHandler (Entry.dir [] true lockedTree)).2.status = 500 := by
  refine ⟨by decide, by decide, ?_, by decide, by decide⟩
  intro st
  have h : initializeKnowledgeBase emptyStore (Entry.dir [] true lockedTree) =
      Outcome.threw (indexFile emptyStore (js "a.md") (some (js "# A", 1))) := by decide
  rw [h]
  intro hc
  cases hc

/-! ## The search handler -/

theorem trim_eq_nil_iff (s : JSString) : trim s = [] ↔ ∀ c ∈ s, isWhiteSpace c = true := by
  unfold trim
  rw [List.reverse_eq_nil_iff, List.dropWhile_eq_nil_iff]
  constructor
  · intro h
    have hnil : s.dropWhile isWhiteSpace = [] := by
      by_contra hne
      have hhead := List.head_dropWhile_not isWhiteSpace s hne
      have hmem : (s.dropWhile isWhiteSpace).head hne ∈ (s.dropWhile isWhiteSpace).reverse :=
        List.mem_reverse.mpr (List.head_mem hne)
      rw [h _ hmem] at hhead
      exact absurd hhead (by decide)
    exact List.dropWhile_eq_nil_iff.mp hnil
  · intro h c hc
    have hnil : s.dropWhile isWhiteSpace = [] := List.dropWhile_eq_nil_iff.mpr h
    rw [hnil] at hc
    simp at hc

theorem searchHandler_blank (lower : JSString → JSString) (st : Store) (query : JSString)
    (options : Option SearchOptions) (h : trim query = []) :
    searchHandler lower st (some query) options =
      { status := 400, body := Body.error (js "搜索查询不能为空") none } := by
  simp [searchHandler, h]

theorem searchHandler_not_blank (lower : JSString → JSString) (st : Store) (query : JSString)
    (options : Option SearchOptions) (h : trim query ≠ []) :
    searchHandler lower st (some query) options =
      { status := 500
        body := Body.error (js "搜索失败") (some (js "req is not defined")) } := by
  have hq : query ≠ [] := by
    intro hq
    apply h
    rw [hq]
    rfl
  simp [searchHandler, h, hq, logSearch]

/-- C19: the search handler answers 400 exactly when the query is absent, empty
or made of whitespace only; that answer is given before `searchKnowledgeBase` is
called and does not depend on the index; a query with a character that is not
whitespace is never answered with 400. -/
theorem searchHandler_rejects_blank_query (lower : JSString → JSString) (st : Store)
    (query : Option JSString) (options : Option SearchOptions) :
    ((searchHandler lower st query options).status = 400 ↔
        (query = none ∨ ∃ q, query = some q ∧ ∀ c ∈ q, isWhiteSpace c = true)) ∧
      ((query = none ∨ ∃ q, query = some q ∧ ∀ c ∈ q, isWhiteSpace c = true) →
        ∀ (lower' : JSString → JSString) (st' : Store),
          searchHandler lower' st' query options =
            { status := 400, body := Body.error (js "搜索查询不能为空") none }) ∧
      (∀ q, query = some q → (∃ c ∈ q, isWhiteSpace c = false) →
        (searchHandler lower st query options).status ≠ 400) := by
  have hblank : (query = none ∨ ∃ q, query = some q ∧ ∀ c ∈ q, isWhiteSpace c = true) →
      ∀ (lower' : JSString → JSString) (st' : Store),
        searchHandler lower' st' query options =
          { status := 400, body := Body.error (js "搜索查询不能为空") none } := by
    intro h lower' st'
    rcases h with h | ⟨q, hq, hws⟩
    · subst h
      rfl
    · subst hq
      exact searchHandler_blank lower' st' q options ((trim_eq_nil_iff q).mpr hws)
  have hnot : ∀ q, query = some q → (∃ c ∈ q, isWhiteSpace c = false) →
      (searchHandler lower st query options).status ≠ 400 := by
    intro q hq hc
    subst hq
    have htrim : trim q ≠ [] := by
      intro ht
      obtain ⟨c, hc, hcw⟩ := hc
      rw [(trim_eq_nil_iff q).mp ht c hc] at hcw
      exact absurd hcw (by decide)
    rw [searchHandler_not_blank lower st q options htrim]
    decide
  refine ⟨⟨?_, ?_⟩, hblank, hnot⟩
  · intro h400
    cases query with
    | none => exact Or.inl rfl
    | some q =>
      right
      refine ⟨q, rfl, ?_⟩
      by_contra hne
      have hex : ∃ c ∈ q, isWhiteSpace c = false := by
        by_contra hno
        apply hne
        intro c hc
        cases hw : isWhiteSpace c with
        | true => rfl
        | false => exact absurd ⟨c, hc, hw⟩ hno
      exact hnot q rfl hex h400
  · intro h
    rw [hblank h lower st]

/-- C20 at the query `hello`, whatever the index and the options are: the search
runs, then `logSearch` throws the ReferenceError `req is not defined`, the
`catch` of the handler answers 500 with the body `{error: '搜索失败', message}`,
and the object `{results, total, query, options}` is never sent. -/
theorem searchHandler_answers_500 (st : Store) (options : Option SearchOptions) :
    searchHandler toLowerCase st (some (js "hello")) options =
        { status := 500
          body := Body.error (js "搜索失败") (some (js "req is not defined")) } ∧
      (searchHandler toLowerCase st (some (js "hello")) options).body ≠
        Body.search (searchKnowledgeBase toLowerCase st.fileIndex (js "hello")
          (options.getD ⟨none, none, none, none, none⟩)) := by
  have h := searchHandler_not_blank toLowerCase st (js "hello") options (by decide)
  refine ⟨h, ?_⟩
  rw [h]
  intro hc
  cases hc

/-! ## Size -/

theorem length_readUtf8_le (text : List Char) : (readUtf8 text).length ≤ byteLength text := by
  induction text with
  | nil => simp [readUtf8, byteLength]
  | cons c text ih =>
    have hc : (utf16Units c).length ≤ utf8Size c := by
      unfold utf16Units utf8Size
      split_ifs <;> first | omega | simp
    simp only [readUtf8, byteLength, List.flatMap_cons, List.length_append, List.map_cons,
      List.sum_cons] at ih ⊢
    omega

theorem length_readUtf8_of_ascii (text : List Char) (h : ∀ c ∈ text, c.toNat < 0x80) :
    (readUtf8 text).length = byteLength text := by
  induction text with
  | nil => simp [readUtf8, byteLength]
  | cons c text ih =>
    have hc := h c (List.mem_cons_self _ _)
    have ih' := ih (fun d hd => h d (List.mem_cons_of_mem _ hd))
    have h1 : (utf16Units c).length = 1 := by
      unfold utf16Units
      rw [if_pos (by omega)]
      rfl
    have h2 : utf8Size c = 1 := by
      unfold utf8Size
      rw [if_pos hc]
    simp only [readUtf8, byteLength, List.flatMap_cons, List.length_append, List.map_cons,
      List.sum_cons] at ih' ⊢
    omega

/-- C21 at the content `é` (one code point, two bytes in UTF-8) and at the
content `知识` (two code points, six bytes): `size` is `content.length`, the
number of UTF-16 code units of the decoded string, 1 and 2, not the byte length
2 and 6. -/
theorem size_counts_code_units_not_bytes :
    ((fileInfo (js "a.md") (readUtf8 "é".toList) 0).size = 1 ∧ byteLength "é".toList = 2) ∧
      ((fileInfo (js "a.md") (readUtf8 "知识".toList) 0).size = 2 ∧
        byteLength "知识".toList = 6) := by
  decide

/-! ## The excluded directory -/

theorem watcher_ignores (root : JSString) (st : Store) (event : WatchEvent)
    (relativePath : JSString) (read : Option (JSString × Int))
    (h : js "node_modules" <:+: relativePath) :
    watcher root st event relativePath read = st := by
  have hin : js "node_modules" <:+: joinPath root relativePath :=
    h.trans (suffix_joinPath root relativePath).isInfix
  simp [watcher, watcherIgnored, (includes_iff _ _).mpr hin]

/-- C22 on a root that holds `node_modules/pkg/README.md` and `a.md`: the scan
has no exclusion, it enters `node_modules` like any directory and indexes the
file under it; the watcher, whose `ignored` option names the directory, drops
the events of the same file. -/
theorem scan_indexes_under_node_modules :
    initializeKnowledgeBase emptyStore (Entry.dir [] true vendoredTree) =
        Outcome.done
          (indexFile (indexFile emptyStore (js "node_modules/pkg/README.md") (some (js "# Pkg", 1)))
            (js "a.md") (some (js "# A", 2))) ∧
      (reindexHandler (Entry.dir [] true vendoredTree)).1.fileIndex.map (fun file => file.path) =
        [js "node_modules/pkg/README.md", js "a.md"] ∧
      (reindexHandler (Entry.dir [] true vendoredTree)).2.body =
        Body.reindexed (js "重新索引完成") 2 ∧
      watcher (js "/srv/kb") emptyStore WatchEvent.add (js "node_modules/pkg/README.md")
        (some (js "# Pkg", 1)) = emptyStore := by
  decide

/-! ## The matcher on the patterns of `extractTags` -/

theorem greedy_of_maximal (cls : Nat → Bool) (least : Nat)
    (k : JSString → Option Nat → JSString → Option MatchState) (r : MatchState) :
    ∀ (s taken : JSString) (prev : Option Nat),
      least ≤ taken.length + (s.takeWhile cls).length →
      (∀ p, k (taken.reverse ++ s.takeWhile cls) p (s.dropWhile cls) = some r) →
        greedy cls least k taken prev s = some r := by
  intro s
  induction s with
  | nil =>
    intro taken prev hlen hk
    have hlen' : least ≤ taken.length := by simpa using hlen
    have := hk prev
    simp only [List.takeWhile_nil, List.append_nil, List.dropWhile_nil] at this
    simp [greedy, hlen', this]
  | cons c s ih =>
    intro taken prev hlen hk
    by_cases hc : cls c = true
    · have hrec : greedy cls least k (c :: taken) (some c) s = some r := by
        apply ih
        · simp only [List.takeWhile_cons, hc, if_true, List.length_cons] at hlen ⊢
          omega
        · intro p
          have := hk p
          simpa [List.takeWhile_cons, List.dropWhile_cons, hc] using this
      simp [greedy, hc, hrec]
    · have hc' : cls c = false := by simpa using hc
      have hlen' : least ≤ taken.length := by
        simpa [List.takeWhile_cons, hc'] using hlen
      have := hk prev
      simp only [List.takeWhile_cons, List.dropWhile_cons, hc', Bool.false_eq_true, if_false,
        List.append_nil] at this
      simp [greedy, hc', hlen', this]

theorem greedy_of_short (cls : Nat → Bool) (least : Nat)
    (k : JSString → Option Nat → JSString → Option MatchState) :
    ∀ (s taken : JSString) (prev : Option Nat),
      taken.length + (s.takeWhile cls).length < least →
        greedy cls least k taken prev s = none := by
  intro s
  induction s with
  | nil =>
    intro taken prev hlen
    have hlen' : ¬ least ≤ taken.length := by
      simp only [List.takeWhile_nil, List.length_nil] at hlen
      omega
    simp [greedy, hlen']
  | cons c s ih =>
    intro taken prev hlen
    by_cases hc : cls c = true
    · have hrec : greedy cls least k (c :: taken) (some c) s = none := by
        apply ih
        simp only [List.takeWhile_cons, hc, if_true, List.length_cons] at hlen ⊢
        omega
      have hlen' : ¬ least ≤ taken.length := by
        simp only [List.takeWhile_cons, hc, if_true, List.length_cons] at hlen
        omega
      simp [greedy, hc, hrec, hlen']
    · have hc' : cls c = false := by simpa using hc
      have hlen' : ¬ least ≤ taken.length := by
        simp only [List.takeWhile_cons, hc', Bool.false_eq_true, if_false,
          List.length_nil] at hlen
        omega
      simp [greedy, hc', hlen']

/-- The class `[^#\s]` of the token pattern. -/
theorem tokenChar_eq (c : Nat) :
    (fun c => !(c == 35 || isWhiteSpace c)) c = (!(c == 35) && !isWhiteSpace c) := by
  simp [Bool.not_or]

theorem matchHere_tagToken_nil (prev : Option Nat) : matchHere tagTokenPattern prev [] = none := by
  simp [tagTokenPattern, matchHere]

theorem matchHere_tagToken_other (prev : Option Nat) (c : Nat) (s : JSString) (hc : c ≠ 35) :
    matchHere tagTokenPattern prev (c :: s) = none := by
  have : ¬ (35 = c) := fun h => hc h.symm
  simp [tagTokenPattern, matchHere, this]

theorem matchHere_tagToken_hash (prev : Option Nat) (s : JSString) :
    matchHere tagTokenPattern prev (35 :: s) =
      if s.takeWhile (fun c => !(c == 35 || isWhiteSpace c)) = [] then none
      else some { group := none,
                  rest := s.dropWhile (fun c => !(c == 35 || isWhiteSpace c)) } := by
  have hunfold : matchHere tagTokenPattern prev (35 :: s) =
      greedy (fun c => !(c == 35 || isWhiteSpace c)) 1
        (fun _ prev' s' => matchHere [] prev' s') [] (some 35) s := by
    simp [tagTokenPattern, matchHere]
  rw [hunfold]
  by_cases hrun : s.takeWhile (fun c => !(c == 35 || isWhiteSpace c)) = []
  · rw [if_pos hrun]
    apply greedy_of_short
    rw [hrun]
    simp
  · rw [if_neg hrun]
    apply greedy_of_maximal
    · have : 0 < (s.takeWhile (fun c => !(c == 35 || isWhiteSpace c))).length :=
        List.length_pos.mpr hrun
      simp only [List.length_nil, Nat.zero_add]
      omega
    · intro p
      simp [matchHere]

theorem tokensFrom_some_run :
    ∀ (s token : JSString),
      tokensFrom (some token) s =
        tokensFrom (some (token ++ s.takeWhile (fun c => !(c == 35 || isWhiteSpace c))))
          (s.dropWhile (fun c => !(c == 35 || isWhiteSpace c))) := by
  intro s
  induction s with
  | nil => intro token; simp
  | cons c s ih =>
    intro token
    by_cases h35 : c = 35
    · subst h35
      simp [List.takeWhile_cons, List.dropWhile_cons]
    · by_cases hws : isWhiteSpace c = true
      · simp [List.takeWhile_cons, List.dropWhile_cons, h35, hws]
      · have hws' : isWhiteSpace c = false := by simpa using hws
        have hstep : tokensFrom (some token) (c :: s) = tokensFrom (some (token ++ [c])) s := by
          simp [tokensFrom, h35, hws']
        rw [hstep, ih]
        simp [List.takeWhile_cons, List.dropWhile_cons, h35, hws']

theorem tokensFrom_some_at_boundary (s token : JSString)
    (h : s.takeWhile (fun c => !(c == 35 || isWhiteSpace c)) = []) :
    tokensFrom (some token) s = emitToken (some token) ++ tokensFrom none s := by
  cases s with
  | nil => simp [tokensFrom, emitToken]
  | cons c s =>
    by_cases h35 : c = 35
    · subst h35
      simp [tokensFrom, emitToken]
    · by_cases hws : isWhiteSpace c = true
      · simp [tokensFrom, h35, hws, emitToken]
      · have hws' : isWhiteSpace c = false := by simpa using hws
        simp [List.takeWhile_cons, h35, hws'] at h

theorem dropWhile_run_boundary (cls : Nat → Bool) (s : JSString) :
    (s.dropWhile cls).takeWhile cls = [] := by
  induction s with
  | nil => rfl
  | cons c s ih =>
    by_cases hc : cls c = true
    · simpa [List.dropWhile_cons, hc] using ih
    · have hc' : cls c = false := by simpa using hc
      simp [List.dropWhile_cons, List.takeWhile_cons, hc']

theorem length_dropWhile_le (cls : Nat → Bool) (s : JSString) :
    (s.dropWhile cls).length ≤ s.length := by
  induction s with
  | nil => simp
  | cons c s ih =>
    by_cases hc : cls c = true
    · simp only [List.dropWhile_cons, hc, if_true, List.length_cons]
      omega
    · have hc' : cls c = false := by simpa using hc
      simp [List.dropWhile_cons, hc']

theorem take_length_sub_dropWhile (cls : Nat → Bool) (s : JSString) :
    s.take (s.length - (s.dropWhile cls).length) = s.takeWhile cls := by
  have h := List.takeWhile_append_dropWhile cls s
  have hlen : s.length = (s.takeWhile cls).length + (s.dropWhile cls).length := by
    conv_lhs => rw [← h]
    rw [List.length_append]
  have : s.length - (s.dropWhile cls).length = (s.takeWhile cls).length := by omega
  rw [this]
  have h2 : (s.takeWhile cls ++ s.dropWhile cls).take (s.takeWhile cls).length =
      s.takeWhile cls := List.take_left' rfl
  rw [h] at h2
  exact h2

theorem matchAllFrom_tagToken :
    ∀ (fuel : Nat) (s : JSString) (prev : Option Nat), s.length < fuel →
      matchAllFrom tagTokenPattern fuel prev s = (tokensFrom none s).map (fun t => 35 :: t) := by
  intro fuel
  induction fuel with
  | zero => intro s prev h; omega
  | succ fuel ih =>
    intro s prev hlen
    cases s with
    | nil => simp [matchAllFrom, matchHere_tagToken_nil, tokensFrom, emitToken]
    | cons c s =>
      have hs : s.length < fuel := by
        simp only [List.length_cons] at hlen
        omega
      by_cases h35 : c = 35
      · subst h35
        by_cases hrun : s.takeWhile (fun c => !(c == 35 || isWhiteSpace c)) = []
        · have hm := matchHere_tagToken_hash prev s
          rw [if_pos hrun] at hm
          have hspec : tokensFrom none (35 :: s) = tokensFrom none s := by
            have h1 : tokensFrom none (35 :: s) = tokensFrom (some []) s := by
              simp [tokensFrom, emitToken]
            rw [h1, tokensFrom_some_at_boundary s [] hrun]
            simp [emitToken]
          simp only [matchAllFrom, hm]
          rw [ih s (some 35) hs, hspec]
        · have hm := matchHere_tagToken_hash prev s
          rw [if_neg hrun] at hm
          have htext : (35 :: s).take ((35 :: s).length -
              (s.dropWhile (fun c => !(c == 35 || isWhiteSpace c))).length) =
              35 :: s.takeWhile (fun c => !(c == 35 || isWhiteSpace c)) := by
            have hle := length_dropWhile_le (fun c => !(c == 35 || isWhiteSpace c)) s
            have : (35 :: s).length -
                (s.dropWhile (fun c => !(c == 35 || isWhiteSpace c))).length =
                (s.length - (s.dropWhile (fun c => !(c == 35 || isWhiteSpace c))).length) + 1 := by
              simp only [List.length_cons]
              omega
            rw [this, List.take_succ_cons, take_length_sub_dropWhile]
          have hlast : ∃ last, (35 :: s.takeWhile
              (fun c => !(c == 35 || isWhiteSpace c))).getLast? = some last := by
            cases hl : (35 :: s.takeWhile (fun c => !(c == 35 || isWhiteSpace c))).getLast? with
            | none => simp at hl
            | some last => exact ⟨last, rfl⟩
          obtain ⟨last, hlast⟩ := hlast
          have hdrop : (s.dropWhile (fun c => !(c == 35 || isWhiteSpace c))).length < fuel := by
            have hle := length_dropWhile_le (fun c => !(c == 35 || isWhiteSpace c)) s
            omega
          have hspec : tokensFrom none (35 :: s) =
              s.takeWhile (fun c => !(c == 35 || isWhiteSpace c)) ::
                tokensFrom none (s.dropWhile (fun c => !(c == 35 || isWhiteSpace c))) := by
            have h1 : tokensFrom none (35 :: s) = tokensFrom (some []) s := by
              simp [tokensFrom, emitToken]
            rw [h1, tokensFrom_some_run s [], List.nil_append,
              tokensFrom_some_at_boundary _ _ (dropWhile_run_boundary _ s)]
            cases hr : s.takeWhile (fun c => !(c == 35 || isWhiteSpace c)) with
            | nil => exact absurd hr hrun
            | cons a as => simp [emitToken]
          simp only [matchAllFrom, hm, htext, hlast]
          rw [ih _ (some last) hdrop, hspec, List.map_cons]
      · have hm := matchHere_tagToken_other prev c s h35
        have hspec : tokensFrom none (c :: s) = tokensFrom none s := by
          by_cases hws : isWhiteSpace c = true
          · simp [tokensFrom, h35, hws, emitToken]
          · have hws' : isWhiteSpace c = false := by simpa using hws
            simp [tokensFrom, h35, hws']
        simp only [matchAllFrom, hm]
        rw [ih s (some c) hs, hspec]

theorem substring_drop_hash (t : JSString) :
    substring (35 :: t) 1 ((35 :: t).length : Nat) = t := by
  simp [substring]

/-- The matches of `/#[^#\s]+/g` in a text, without their first character, are
the tokens prefixed with `#` of the text. -/
theorem matchAll_tagToken (text : JSString) :
    (matchAll tagTokenPattern text).map (fun tag => substring tag 1 tag.length) =
      hashTokens text := by
  unfold matchAll hashTokens
  rw [matchAllFrom_tagToken _ _ _ (Nat.lt_succ_self _), List.map_map]
  conv_rhs => rw [← List.map_id (tokensFrom none text)]
  apply List.map_congr_left
  intro t _
  simp only [Function.comp, id]
  exact substring_drop_hash t

theorem isWhiteSpace_of_isLineTerminator (c : Nat) (h : isLineTerminator c = true) :
    isWhiteSpace c = true := by
  simp only [isLineTerminator, Bool.or_eq_true, beq_iff_eq] at h
  rcases h with ((h | h) | h) | h <;> subst h <;> decide

theorem matchHere_eol_at_boundary (prev : Option Nat) (t : JSString)
    (h : t.takeWhile (fun c => !isLineTerminator c) = []) :
    matchHere [Node.eol] prev t = some { group := none, rest := t } := by
  cases t with
  | nil => simp [matchHere]
  | cons c t =>
    have hc : isLineTerminator c = true := by
      by_contra hne
      have hne' : isLineTerminator c = false := by simpa using hne
      simp [List.takeWhile_cons, hne'] at h
    simp [matchHere, hc]

theorem matchHere_capture (prev : Option Nat) (r : JSString)
    (h : r.takeWhile (fun c => !isLineTerminator c) ≠ []) :
    matchHere [Node.cap (fun c => !isLineTerminator c) 1, Node.eol] prev r =
      some { group := some (r.takeWhile (fun c => !isLineTerminator c)),
             rest := r.dropWhile (fun c => !isLineTerminator c) } := by
  have hunfold : matchHere [Node.cap (fun c => !isLineTerminator c) 1, Node.eol] prev r =
      greedy (fun c => !isLineTerminator c) 1
        (fun text prev' s' =>
          match matchHere [Node.eol] prev' s' with
          | some r => some { r with group := some text }
          | none => none) [] prev r := by
    simp [matchHere]
  rw [hunfold]
  apply greedy_of_maximal
  · have : 0 < (r.takeWhile (fun c => !isLineTerminator c)).length := List.length_pos.mpr h
    simp only [List.length_nil, Nat.zero_add]
    omega
  · intro p
    simp only [List.reverse_nil, List.nil_append]
    rw [matchHere_eol_at_boundary p _ (dropWhile_run_boundary _ r)]

theorem matchHere_fieldTail (prev : Option Nat) (s : JSString)
    (h : s.dropWhile isWhiteSpace ≠ []) :
    matchHere [Node.rep isWhiteSpace 0, Node.cap (fun c => !isLineTerminator c) 1, Node.eol]
        prev s =
      some { group := some ((s.dropWhile isWhiteSpace).takeWhile (fun c => !isLineTerminator c)),
             rest := (s.dropWhile isWhiteSpace).dropWhile (fun c => !isLineTerminator c) } := by
  have hunfold : matchHere
      [Node.rep isWhiteSpace 0, Node.cap (fun c => !isLineTerminator c) 1, Node.eol] prev s =
      greedy isWhiteSpace 0
        (fun _ prev' s' =>
          matchHere [Node.cap (fun c => !isLineTerminator c) 1, Node.eol] prev' s') [] prev s := by
    simp [matchHere]
  rw [hunfold]
  apply greedy_of_maximal
  · exact Nat.zero_le _
  · intro p
    apply matchHere_capture
    have hhead := List.head_dropWhile_not isWhiteSpace s h
    cases hd : s.dropWhile isWhiteSpace with
    | nil => exact absurd hd h
    | cons c t =>
      have hc : isWhiteSpace c = false := by
        simpa [hd] using hhead
      have hlt : isLineTerminator c = false := by
        cases hl : isLineTerminator c with
        | false => rfl
        | true =>
          rw [isWhiteSpace_of_isLineTerminator c hl] at hc
          exact absurd hc (by decide)
      simp [List.takeWhile_cons, hlt]

theorem matchHere_lits (pat : List Node) :
    ∀ (lits s : JSString) (prev : Option Nat),
      (lits.isPrefixOf s = false → matchHere (lits.map Node.lit ++ pat) prev s = none) ∧
        (lits.isPrefixOf s = true →
          ∃ p, matchHere (lits.map Node.lit ++ pat) prev s =
            matchHere pat p (s.drop lits.length)) := by
  intro lits
  induction lits with
  | nil =>
    intro s prev
    refine ⟨?_, ?_⟩
    · intro h
      simp [List.isPrefixOf] at h
    · intro _
      exact ⟨prev, by simp⟩
  | cons c lits ih =>
    intro s prev
    cases s with
    | nil =>
      refine ⟨?_, ?_⟩
      · intro _
        simp [matchHere]
      · intro h
        simp [List.isPrefixOf] at h
    | cons d s =>
      by_cases hcd : c = d
      · subst hcd
        obtain ⟨ih1, ih2⟩ := ih s (some c)
        refine ⟨?_, ?_⟩
        · intro h
          have h' : lits.isPrefixOf s = false := by simpa [List.isPrefixOf] using h
          simpa [matchHere] using ih1 h'
        · intro h
          have h' : lits.isPrefixOf s = true := by simpa [List.isPrefixOf] using h
          obtain ⟨p, hp⟩ := ih2 h'
          exact ⟨p, by simpa [matchHere] using hp⟩
      · refine ⟨?_, ?_⟩
        · intro _
          simp [matchHere, hcd]
        · intro h
          simp [List.isPrefixOf, hcd] at h

theorem hasText_dropWhile :
    ∀ (s : JSString),
      (s.takeWhile (fun c => !isLineTerminator c)).any (fun c => !isWhiteSpace c) = true →
        s.dropWhile isWhiteSpace ≠ [] ∧
          (s.dropWhile isWhiteSpace).takeWhile (fun c => !isLineTerminator c) =
            (s.takeWhile (fun c => !isLineTerminator c)).dropWhile isWhiteSpace := by
  intro s
  induction s with
  | nil => intro h; simp at h
  | cons c s ih =>
    intro h
    by_cases hlt : isLineTerminator c = true
    · simp [List.takeWhile_cons, hlt] at h
    · have hlt' : isLineTerminator c = false := by simpa using hlt
      by_cases hws : isWhiteSpace c = true
      · have h' : (s.takeWhile (fun c => !isLineTerminator c)).any
            (fun c => !isWhiteSpace c) = true := by
          simpa [List.takeWhile_cons, hlt', hws] using h
        obtain ⟨h1, h2⟩ := ih h'
        refine ⟨?_, ?_⟩
        · simpa [List.dropWhile_cons, hws] using h1
        · simpa [List.dropWhile_cons, List.takeWhile_cons, hws, hlt'] using h2
      · have hws' : isWhiteSpace c = false := by simpa using hws
        refine ⟨?_, ?_⟩
        · simp [List.dropWhile_cons, hws']
        · simp [List.dropWhile_cons, List.takeWhile_cons, hws', hlt']

/-- On a content whose first line starting with `field` has text, the pattern
`/^field\s*(.+)$/m` captures the remainder of that line from its first character
that is not whitespace; without such a line it does not match. -/
theorem exec_field (field : JSString) (hf : field ≠ []) :
    ∀ (s : JSString) (prev : Option Nat),
      (∀ remainder, fieldRemainder field ((prev.map isLineTerminator).getD true) s =
          some remainder → remainder.any (fun c => !isWhiteSpace c) = true) →
        (exec ([Node.bol] ++ field.map Node.lit ++
            [Node.rep isWhiteSpace 0, Node.cap (fun c => !isLineTerminator c) 1, Node.eol])
            prev s).map (fun m => m.group) =
          (fieldRemainder field ((prev.map isLineTerminator).getD true) s).map
            (fun remainder => some (remainder.dropWhile isWhiteSpace)) := by
  have hbol : ∀ (prev : Option Nat) (s : JSString),
      matchHere ([Node.bol] ++ field.map Node.lit ++
          [Node.rep isWhiteSpace 0, Node.cap (fun c => !isLineTerminator c) 1, Node.eol])
          prev s =
        if (prev.map isLineTerminator).getD true = true then
          matchHere (field.map Node.lit ++
            [Node.rep isWhiteSpace 0, Node.cap (fun c => !isLineTerminator c) 1, Node.eol])
            prev s
        else none := by
    intro prev s
    cases prev with
    | none => simp [matchHere]
    | some p =>
      by_cases hp : isLineTerminator p = true
      · simp [matchHere, hp]
      · simp [matchHere, hp]
  have hnil : field.isPrefixOf ([] : JSString) = false := by
    cases field with
    | nil => exact absurd rfl hf
    | cons a field => rfl
  intro s
  induction s with
  | nil =>
    intro prev _
    have hm : matchHere ([Node.bol] ++ field.map Node.lit ++
        [Node.rep isWhiteSpace 0, Node.cap (fun c => !isLineTerminator c) 1, Node.eol])
        prev [] = none := by
      rw [hbol]
      split_ifs
      · exact (matchHere_lits _ field [] prev).1 hnil
      · rfl
    rw [exec, hm]
    simp [fieldRemainder, hnil]
  | cons c s ih =>
    intro prev h
    by_cases hstart : ((prev.map isLineTerminator).getD true && field.isPrefixOf (c :: s)) = true
    · rw [Bool.and_eq_true] at hstart
      have hrem : fieldRemainder field ((prev.map isLineTerminator).getD true) (c :: s) =
          some (((c :: s).drop field.length).takeWhile (fun d => !isLineTerminator d)) := by
        simp [fieldRemainder, hstart.1, hstart.2]
      have htext := hasText_dropWhile _ (h _ hrem)
      obtain ⟨p, hp⟩ := (matchHere_lits
        [Node.rep isWhiteSpace 0, Node.cap (fun c => !isLineTerminator c) 1, Node.eol]
        field (c :: s) prev).2 hstart.2
      have hm : matchHere ([Node.bol] ++ field.map Node.lit ++
          [Node.rep isWhiteSpace 0, Node.cap (fun c => !isLineTerminator c) 1, Node.eol])
          prev (c :: s) =
          some { group := some ((((c :: s).drop field.length).dropWhile isWhiteSpace).takeWhile
                   (fun c => !isLineTerminator c)),
                 rest := (((c :: s).drop field.length).dropWhile isWhiteSpace).dropWhile
                   (fun c => !isLineTerminator c) } := by
        rw [hbol, if_pos hstart.1, hp, matchHere_fieldTail p _ htext.1]
      rw [hrem]
      simp only [exec, hm, Option.map_some']
      rw [htext.2]
    · have hstart' : ((prev.map isLineTerminator).getD true &&
          field.isPrefixOf (c :: s)) = false := Bool.eq_false_iff.mpr hstart
      have hm : matchHere ([Node.bol] ++ field.map Node.lit ++
          [Node.rep isWhiteSpace 0, Node.cap (fun c => !isLineTerminator c) 1, Node.eol])
          prev (c :: s) = none := by
        rw [hbol]
        split_ifs with hb
        · have hpre : field.isPrefixOf (c :: s) = false := by
            rw [hb] at hstart'
            simpa using hstart'
          exact (matchHere_lits _ field (c :: s) prev).1 hpre
        · rfl
      have hrem : fieldRemainder field ((prev.map isLineTerminator).getD true) (c :: s) =
          fieldRemainder field (isLineTerminator c) s := by
        simp only [fieldRemainder, hstart', Bool.false_eq_true, if_false]
      have hih := ih (some c) (by
        intro remainder hr
        apply h
        rw [hrem]
        simpa using hr)
      simp only [exec, hm]
      rw [hrem]
      simpa using hih

/-! ## Tags -/

theorem tokensFrom_dropWhile_isWhiteSpace :
    ∀ s : JSString, tokensFrom none (s.dropWhile isWhiteSpace) = tokensFrom none s := by
  intro s
  induction s with
  | nil => rfl
  | cons c s ih =>
    by_cases hws : isWhiteSpace c = true
    · have h35 : c ≠ 35 := by
        intro h
        subst h
        exact absurd hws (by decide)
      simp [List.dropWhile_cons, hws, tokensFrom, h35, emitToken, ih]
    · have hws' : isWhiteSpace c = false := by simpa using hws
      simp [List.dropWhile_cons, hws']

theorem trim_dropWhile_isWhiteSpace (s : JSString) : trim (s.dropWhile isWhiteSpace) = trim s := by
  unfold trim
  rw [List.dropWhile_idempotent]

theorem exec_fieldLine (field : JSString) (hf : field ≠ []) (content : JSString)
    (h : fieldHasText field content = true) :
    (exec ([Node.bol] ++ field.map Node.lit ++
        [Node.rep isWhiteSpace 0, Node.cap (fun c => !isLineTerminator c) 1, Node.eol])
        none content).map (fun m => m.group.getD []) =
      (fieldRemainder field true content).map (fun remainder => remainder.dropWhile isWhiteSpace) := by
  have hex := exec_field field hf content none (by
    intro remainder hr
    have hr' : fieldRemainder field true content = some remainder := by simpa using hr
    unfold fieldHasText at h
    rw [hr'] at h
    exact h)
  have hex' : (exec ([Node.bol] ++ field.map Node.lit ++
      [Node.rep isWhiteSpace 0, Node.cap (fun c => !isLineTerminator c) 1, Node.eol])
      none content).map (fun m => m.group) =
      (fieldRemainder field true content).map
        (fun remainder => some (remainder.dropWhile isWhiteSpace)) := by simpa using hex
  cases he : exec ([Node.bol] ++ field.map Node.lit ++
      [Node.rep isWhiteSpace 0, Node.cap (fun c => !isLineTerminator c) 1, Node.eol])
      none content with
  | none =>
    rw [he] at hex'
    cases hr : fieldRemainder field true content with
    | none => rfl
    | some remainder =>
      rw [hr] at hex'
      simp at hex'
  | some m =>
    rw [he] at hex'
    cases hr : fieldRemainder field true content with
    | none =>
      rw [hr] at hex'
      simp at hex'
    | some remainder =>
      rw [hr] at hex'
      simp only [Option.map_some', Option.some.injEq] at hex' ⊢
      rw [hex']
      rfl

/-- On a content whose `Tag:` line and `Category:` line (the first line that
starts with the field name, when there is one) have text, the tags are the
tokens prefixed with `#` of the remainder of the `Tag:` line, in order and as
often as they occur, followed by the trimmed remainder of the `Category:`
line. -/
theorem extractTags_eq_tokens_then_category (content : JSString)
    (hTag : fieldHasText (js "Tag:") content = true)
    (hCategory : fieldHasText (js "Category:") content = true) :
    extractTags content =
      ((fieldRemainder (js "Tag:") true content).map hashTokens).getD [] ++
        ((fieldRemainder (js "Category:") true content).map trim).toList := by
  have htag := exec_fieldLine (js "Tag:") (by decide) content hTag
  have hcat := exec_fieldLine (js "Category:") (by decide) content hCategory
  have htagPat : tagLinePattern = [Node.bol] ++ (js "Tag:").map Node.lit ++
      [Node.rep isWhiteSpace 0, Node.cap (fun c => !isLineTerminator c) 1, Node.eol] := rfl
  have hcatPat : categoryLinePattern = [Node.bol] ++ (js "Category:").map Node.lit ++
      [Node.rep isWhiteSpace 0, Node.cap (fun c => !isLineTerminator c) 1, Node.eol] := rfl
  rw [← htagPat] at htag
  rw [← hcatPat] at hcat
  have hfirst : (match exec tagLinePattern none content with
      | some tagMatch =>
        ([] : List JSString) ++ (matchAll tagTokenPattern (tagMatch.group.getD [])).map
          (fun tag => substring tag 1 tag.length)
      | none => []) = ((fieldRemainder (js "Tag:") true content).map hashTokens).getD [] := by
    cases he : exec tagLinePattern none content with
    | none =>
      rw [he] at htag
      cases hr : fieldRemainder (js "Tag:") true content with
      | none => rfl
      | some remainder =>
        rw [hr] at htag
        simp at htag
    | some m =>
      rw [he] at htag
      cases hr : fieldRemainder (js "Tag:") true content with
      | none =>
        rw [hr] at htag
        simp at htag
      | some remainder =>
        rw [hr] at htag
        simp only [Option.map_some', Option.some.injEq] at htag
        simp only [List.nil_append, Option.map_some', Option.getD_some]
        rw [htag, matchAll_tagToken]
        exact tokensFrom_dropWhile_isWhiteSpace remainder
  unfold extractTags
  simp only [hfirst]
  cases he : exec categoryLinePattern none content with
  | none =>
    rw [he] at hcat
    cases hr : fieldRemainder (js "Category:") true content with
    | none => simp
    | some remainder =>
      rw [hr] at hcat
      simp at hcat
  | some m =>
    rw [he] at hcat
    cases hr : fieldRemainder (js "Category:") true content with
    | none =>
      rw [hr] at hcat
      simp at hcat
    | some remainder =>
      rw [hr] at hcat
      simp only [Option.map_some', Option.some.injEq] at hcat
      simp only [Option.map_some', Option.toList_some]
      rw [hcat, trim_dropWhile_isWhiteSpace]

/-- C23, as stated, fails on the content `Tag: #a #a`, whose tags are `a`, `a`,
and on the content `Tag: #a\nCategory: a`, whose tags are `a`, `a` as well. -/
theorem extractTags_duplicates_counterexample :
    extractTags (js "Tag: #a #a") = [js "a", js "a"] ∧
      ¬ (extractTags (js "Tag: #a #a")).Nodup ∧
      extractTags (js "Tag: #a\nCategory: a") = [js "a", js "a"] ∧
      ¬ (extractTags (js "Tag: #a\nCategory: a")).Nodup := by
  decide

/-- C23 (amended): on a content whose `Tag:` line and `Category:` line have text
after the field name, the tags are the tokens prefixed with `#` of the remainder
of the `Tag:` line, in order and as often as they occur there, followed by the
trimmed remainder of the `Category:` line when there is one; so the list holds
no string twice exactly when the tokens are pairwise distinct and the
`Category:` value is none of them. -/
theorem extractTags_nodup_iff (content : JSString)
    (hTag : fieldHasText (js "Tag:") content = true)
    (hCategory : fieldHasText (js "Category:") content = true) :
    extractTags content =
        ((fieldRemainder (js "Tag:") true content).map hashTokens).getD [] ++
          ((fieldRemainder (js "Category:") true content).map trim).toList ∧
      ((extractTags content).Nodup ↔
        ((((fieldRemainder (js "Tag:") true content).map hashTokens).getD []).Nodup ∧
          ∀ remainder, fieldRemainder (js "Category:") true content = some remainder →
            trim remainder ∉
              ((fieldRemainder (js "Tag:") true content).map hashTokens).getD [])) := by
  have heq := extractTags_eq_tokens_then_category content hTag hCategory
  refine ⟨heq, ?_⟩
  rw [heq]
  cases hr : fieldRemainder (js "Category:") true content with
  | none => simp
  | some remainder =>
    simp only [Option.map_some', Option.toList_some, Option.some.injEq, forall_eq']
    rw [List.nodup_append]
    simp only [List.nodup_cons, List.not_mem_nil, not_false_eq_true, List.nodup_nil, and_self,
      true_and, List.Disjoint]
    constructor
    · rintro ⟨h1, h2⟩
      exact ⟨h1, fun hc => h2 hc (List.mem_singleton_self _)⟩
    · rintro ⟨h1, h2⟩
      refine ⟨h1, ?_⟩
      intro a ha hac
      rw [List.mem_singleton] at hac
      exact h2 (hac ▸ ha)

/-- The amended C23 on the content `Tag: #x #y #x\nCategory: y`: the tags are
`x`, `y`, `x`, `y`, each token as often as it occurs and the `Category:` value
although it is one of them. -/
theorem extractTags_nodup_iff_witness :
    (fieldHasText (js "Tag:") (js "Tag: #x #y #x\nCategory: y") = true ∧
      fieldHasText (js "Category:") (js "Tag: #x #y #x\nCategory: y") = true) ∧
    ((fieldRemainder (js "Tag:") true (js "Tag: #x #y #x\nCategory: y")).map hashTokens =
        some [js "x", js "y", js "x"] ∧
      (fieldRemainder (js "Category:") true (js "Tag: #x #y #x\nCategory: y")).map trim =
        some (js "y")) ∧
    (extractTags (js "Tag: #x #y #x\nCategory: y") =
        ((fieldRemainder (js "Tag:") true (js "Tag: #x #y #x\nCategory: y")).map
          hashTokens).getD [] ++
          ((fieldRemainder (js "Category:") true (js "Tag: #x #y #x\nCategory: y")).map
            trim).toList ∧
      ((extractTags (js "Tag: #x #y #x\nCategory: y")).Nodup ↔
        ((((fieldRemainder (js "Tag:") true (js "Tag: #x #y #x\nCategory: y")).map
            hashTokens).getD []).Nodup ∧
          ∀ remainder,
            fieldRemainder (js "Category:") true (js "Tag: #x #y #x\nCategory: y") =
              some remainder →
            trim remainder ∉
              ((fieldRemainder (js "Tag:") true (js "Tag: #x #y #x\nCategory: y")).map
                hashTokens).getD []))) :=
  ⟨⟨by decide, by decide⟩, ⟨by decide, by decide⟩,
    extractTags_nodup_iff (js "Tag: #x #y #x\nCategory: y") (by decide) (by decide)⟩

/-! ## Completion order -/

theorem mapGet_mapSet_self (m : Cache) (key : JSString) (value : FileInfo) :
    mapGet (mapSet m key value) key = some value := by
  unfold mapSet
  split_ifs with hhas
  · unfold mapHas at hhas
    unfold mapGet
    induction m with
    | nil => simp at hhas
    | cons e m ih =>
      by_cases he : e.1 = key
      · have h1 : (e.1 == key) = true := by simpa using he
        simp only [List.map_cons, List.find?_cons, h1, if_true, beq_self_eq_true,
          Option.map_some']
      · have h1 : (e.1 == key) = false := by simpa using he
        have hm : m.any (fun e => e.1 == key) = true := by
          simpa [List.any_cons, h1] using hhas
        simp only [List.map_cons, List.find?_cons, h1, Bool.false_eq_true, if_false]
        exact ih hm
  · unfold mapHas at hhas
    unfold mapGet
    have hnone : List.find? (fun e => e.1 == key) m = none := by
      rw [List.find?_eq_none]
      intro e he hk
      exact hhas (List.any_eq_true.mpr ⟨e, he, hk⟩)
    simp [List.find?_append, hnone]

/-- C24, as stated, fails when the read started for the first event returns
`# Old` and completes after the read started for the second event, which
returned `# New`: the entry of `a.md` in `knowledgeCache` is then the document
of the first event, titled `Old`, not the one extracted for the second. -/
theorem last_issued_counterexample :
    mapGet (completeInOrder emptyStore
        [{ relativePath := js "a.md", read := some (js "# New", 2) },
          { relativePath := js "a.md", read := some (js "# Old", 1) }]).knowledgeCache
        (js "a.md") ≠ some (fileInfo (js "a.md") (js "# New") 2) ∧
      (mapGet (completeInOrder emptyStore
        [{ relativePath := js "a.md", read := some (js "# New", 2) },
          { relativePath := js "a.md", read := some (js "# Old", 1) }]).knowledgeCache
        (js "a.md")).map (fun file => file.title) = some (js "Old") := by
  decide

/-- C24 (amended): when the extraction started for the first event (which read
`content1`) completes after the one started for the second event on the same
path `P`, the entry of `P` in `knowledgeCache` after both have completed is the
document of the extraction that completed last, the first event's, and that is
the document the file lookup sends for `P`. -/
theorem last_completed_wins (st : Store) (P content1 : JSString) (mtime1 : Int)
    (read2 : Option (JSString × Int)) :
    mapGet (completeInOrder st
        [{ relativePath := P, read := read2 },
          { relativePath := P, read := some (content1, mtime1) }]).knowledgeCache P =
        some (fileInfo P content1 mtime1) ∧
      (∀ param, decodeURIComponent param = some P →
        getFileHandler (completeInOrder st
          [{ relativePath := P, read := read2 },
            { relativePath := P, read := some (content1, mtime1) }]) param =
          { status := 200, body := Body.file (fileInfo P content1 mtime1) }) := by
  have hget : mapGet (completeInOrder st
      [{ relativePath := P, read := read2 },
        { relativePath := P, read := some (content1, mtime1) }]).knowledgeCache P =
      some (fileInfo P content1 mtime1) := by
    simp only [completeInOrder, List.foldl_cons, List.foldl_nil, completeExtraction, indexFile]
    exact mapGet_mapSet_self _ _ _
  refine ⟨hget, ?_⟩
  intro param hparam
  exact getFileHandler_present _ param P _ hparam hget

/-! ## Consistency of the two stores -/

theorem applyOp_consistent (st : Store) (op : StoreOp)
    (h : ∀ P, st.fileIndex.any (fun file => file.path == P) = mapHas st.knowledgeCache P) :
    ∀ P, (applyOp st op).fileIndex.any (fun file => file.path == P) =
      mapHas (applyOp st op).knowledgeCache P := by
  intro P
  cases op with
  | index Q read =>
    cases read with
    | none => exact h P
    | some r =>
      simp only [applyOp, indexFile, List.any_append, mapHas_mapSet_eq, h P]
      simp [fileInfo]
  | unlink Q =>
    simp only [applyOp, watcherUnlink, mapHas, mapDelete]
    have hP := h P
    unfold mapHas at hP
    by_cases hPQ : P = Q
    · subst hPQ
      have h1 : (st.fileIndex.filter (fun file => file.path != P)).any
          (fun file => file.path == P) = false := by
        simp [List.any_filter]
      have h2 : (st.knowledgeCache.filter (fun e => e.1 != P)).any (fun e => e.1 == P) = false := by
        simp [List.any_filter]
      rw [h1, h2]
    · have h1 : (st.fileIndex.filter (fun file => file.path != Q)).any
          (fun file => file.path == P) = st.fileIndex.any (fun file => file.path == P) := by
        rw [List.any_filter]
        congr 1
        funext file
        by_cases hf : file.path = P
        · simp [hf, hPQ]
        · simp [hf]
      have h2 : (st.knowledgeCache.filter (fun e => e.1 != Q)).any (fun e => e.1 == P) =
          st.knowledgeCache.any (fun e => e.1 == P) := by
        rw [List.any_filter]
        congr 1
        funext e
        by_cases hf : e.1 = P
        · simp [hf, hPQ]
        · simp [hf]
      rw [h1, h2, hP]
  | clear => rfl

theorem foldl_applyOp_consistent :
    ∀ (ops : List StoreOp) (st : Store),
      (∀ P, st.fileIndex.any (fun file => file.path == P) = mapHas st.knowledgeCache P) →
        ∀ P, (ops.foldl applyOp st).fileIndex.any (fun file => file.path == P) =
          mapHas (ops.foldl applyOp st).knowledgeCache P := by
  intro ops
  induction ops with
  | nil => intro st h; exact h
  | cons op ops ih =>
    intro st h
    rw [List.foldl_cons]
    exact ih _ (applyOp_consistent st op h)

/-- C25: after every sequence of `indexFile` runs, `unlink` handlers and resets,
from the empty stores, a path is the path of a document of `fileIndex` exactly
when it is a key of `knowledgeCache`; so the file lookup answers 404 to a
request path that decodes to `P` (to `P` itself when it has no `%`) exactly when
`fileIndex` has no document of path `P`. -/
theorem stores_hold_the_same_paths (ops : List StoreOp) (P : JSString) :
    ((∃ file ∈ (runOps ops).fileIndex, file.path = P) ↔
        mapHas (runOps ops).knowledgeCache P = true) ∧
      ((runOps ops).fileIndex.map (fun file => file.path)).toFinset =
        ((runOps ops).knowledgeCache.map (fun e => e.1)).toFinset ∧
      (∀ param, decodeURIComponent param = some P →
        ((getFileHandler (runOps ops) param).status = 404 ↔
          ∀ file ∈ (runOps ops).fileIndex, file.path ≠ P)) ∧
      (37 ∉ P →
        ((getFileHandler (runOps ops) P).status = 404 ↔
          ∀ file ∈ (runOps ops).fileIndex, file.path ≠ P)) := by
  have hall : ∀ Q, (runOps ops).fileIndex.any (fun file => file.path == Q) =
      mapHas (runOps ops).knowledgeCache Q :=
    foldl_applyOp_consistent ops emptyStore (fun Q => rfl)
  have hiff : ∀ Q, (∃ file ∈ (runOps ops).fileIndex, file.path = Q) ↔
      mapHas (runOps ops).knowledgeCache Q = true := by
    intro Q
    rw [← hall Q, List.any_eq_true]
    constructor
    · rintro ⟨file, hf, hp⟩
      exact ⟨file, hf, by simpa using hp⟩
    · rintro ⟨file, hf, hp⟩
      exact ⟨file, hf, by simpa using hp⟩
  have hlookup : ∀ param, decodeURIComponent param = some P →
      ((getFileHandler (runOps ops) param).status = 404 ↔
        ∀ file ∈ (runOps ops).fileIndex, file.path ≠ P) := by
    intro param hparam
    rw [getFileHandler_status_404_iff _ param P hparam]
    constructor
    · intro hfalse file hf hp
      have := (hiff P).mp ⟨file, hf, hp⟩
      rw [hfalse] at this
      exact absurd this (by decide)
    · intro hno
      cases hh : mapHas (runOps ops).knowledgeCache P with
      | false => rfl
      | true =>
        obtain ⟨file, hf, hp⟩ := (hiff P).mpr hh
        exact absurd hp (hno file hf)
  refine ⟨hiff P, ?_, hlookup, ?_⟩
  · ext Q
    simp only [List.mem_toFinset, List.mem_map]
    constructor
    · rintro ⟨file, hf, hp⟩
      have := (hiff Q).mp ⟨file, hf, hp⟩
      unfold mapHas at this
      obtain ⟨e, he, hk⟩ := List.any_eq_true.mp this
      exact ⟨e, he, by simpa using hk⟩
    · rintro ⟨e, he, hk⟩
      have hhas : mapHas (runOps ops).knowledgeCache Q = true :=
        List.any_eq_true.mpr ⟨e, he, by simpa using hk⟩
      exact (hiff Q).mpr hhas
  · intro hP
    exact hlookup P (decodeURIComponent_of_no_percent P hP)

/-! ## Match entries -/

theorem foldl_tagStep_matchEntries (lower : JSString → JSString) (queryLower : JSString) :
    ∀ (tags : List JSString) (acc : Tally),
      (tags.foldl (tagStep lower queryLower) acc).matchEntries =
        acc.matchEntries ++
          (tags.filter (fun tag => decide (queryLower <:+: lower tag))).map
            (fun tag => { type := MatchType.tag, text := tag, line := none }) := by
  intro tags
  induction tags with
  | nil => intro acc; simp
  | cons tag tags ih =>
    intro acc
    rw [List.foldl_cons, ih]
    by_cases h : queryLower <:+: lower tag
    · simp [tagStep, includes_eq_decide, h]
    · simp [tagStep, includes_eq_decide, h]

theorem tally_matchEntries (lower : JSString → JSString) (query : JSString) (file : FileInfo) :
    (tally lower query file).matchEntries =
      (if lower query <:+: lower file.title then
          [{ type := MatchType.title, text := file.title, line := none }] else []) ++
        (file.tags.filter (fun tag => decide (lower query <:+: lower tag))).map
          (fun tag => { type := MatchType.tag, text := tag, line := none }) ++
        (if lower query <:+: lower file.content then
          extractContentMatches lower file.content query else []) ++
        (if lower query <:+: lower file.path then
          [{ type := MatchType.path, text := file.path, line := none }] else []) := by
  unfold tally
  simp only [includes_eq_decide, decide_eq_true_eq]
  split_ifs <;> simp [foldl_tagStep_matchEntries]

/-- A result without match entries owes its score to the content alone: its
score is 5, the lower-cased content contains the lower-cased query, and neither
the title, nor a tag, nor the path does. -/
theorem tally_matchEntries_nil (lower : JSString → JSString) (query : JSString)
    (file : FileInfo) (h : (tally lower query file).matchEntries = [])
    (hpos : 0 < (tally lower query file).score) :
    (tally lower query file).score = 5 ∧ lower query <:+: lower file.content ∧
      ¬ lower query <:+: lower file.title ∧ ¬ lower query <:+: lower file.path ∧
      ∀ tag ∈ file.tags, ¬ lower query <:+: lower tag := by
  rw [tally_matchEntries] at h
  simp only [List.append_eq_nil, List.map_eq_nil_iff] at h
  obtain ⟨⟨⟨ht, hg⟩, -⟩, hp⟩ := h
  have htitle : ¬ lower query <:+: lower file.title := by
    intro hc
    rw [if_pos hc] at ht
    simp at ht
  have hpath : ¬ lower query <:+: lower file.path := by
    intro hc
    rw [if_pos hc] at hp
    simp at hp
  have htags : ∀ tag ∈ file.tags, ¬ lower query <:+: lower tag := by
    intro tag htag hc
    have hmem : tag ∈ file.tags.filter (fun tag => decide (lower query <:+: lower tag)) :=
      List.mem_filter.mpr ⟨htag, by simpa using hc⟩
    rw [hg] at hmem
    simp at hmem
  have hcount : file.tags.countP (fun tag => decide (lower query <:+: lower tag)) = 0 := by
    rw [List.countP_eq_length_filter, hg]
    rfl
  rw [tally_score, if_neg htitle, if_neg hpath, hcount] at hpos ⊢
  by_cases hcontent : lower query <:+: lower file.content
  · rw [if_pos hcontent]
    exact ⟨by norm_num, hcontent, htitle, hpath, htags⟩
  · rw [if_neg hcontent] at hpos
    simp at hpos

/-- C26, as stated, fails at the index that holds the file `notes/x.md` of
content `alpha\nbeta` and the query `alpha\nbeta`: the content contains the
query, the score is 5 and the document is returned, but the query spans two
lines, no line contains it, `extractContentMatches` returns nothing and the
result has an empty list of matches. -/
theorem result_without_match_entries :
    (searchKnowledgeBase toLowerCase [fileInfo (js "notes/x.md") (js "alpha\nbeta") 0]
        (js "alpha\nbeta") ⟨none, none, none, none, none⟩).results.map
        (fun r => (r.file.path, r.score, r.matchEntries)) = [(js "notes/x.md", 5, [])] ∧
      extractContentMatches toLowerCase (js "alpha\nbeta") (js "alpha\nbeta") = [] ∧
      includes (toLowerCase (js "alpha\nbeta")) (toLowerCase (js "alpha\nbeta")) = true := by
  decide

theorem prefix_of_prefix_append_cons {α : Type} (x : α) :
    ∀ (a t b : List α), t <+: a ++ x :: b → x ∉ t → t <+: a := by
  intro a
  induction a with
  | nil =>
    intro t b h hx
    cases t with
    | nil => exact List.nil_prefix
    | cons c t =>
      rw [List.nil_append, List.cons_prefix_cons] at h
      exact absurd (h.1 ▸ List.mem_cons_self _ _) hx
  | cons y a ih =>
    intro t b h hx
    cases t with
    | nil => exact List.nil_prefix
    | cons c t =>
      rw [List.cons_append, List.cons_prefix_cons] at h
      rw [List.cons_prefix_cons]
      exact ⟨h.1, ih t b h.2 (fun hm => hx (List.mem_cons_of_mem _ hm))⟩

/-- A string without the unit `x` that occurs in `a ++ x :: b` occurs in `a` or
in `b`. -/
theorem infix_of_infix_append_cons {α : Type} (x : α) (t : List α) (hx : x ∉ t) :
    ∀ (a b : List α), t <:+: a ++ x :: b → t <:+: a ∨ t <:+: b := by
  intro a
  induction a with
  | nil =>
    intro b h
    rw [List.nil_append, List.infix_cons_iff] at h
    rcases h with h | h
    · exact Or.inl ((prefix_of_prefix_append_cons x [] t b h hx).isInfix)
    · exact Or.inr h
  | cons y a ih =>
    intro b h
    rw [List.cons_append, List.infix_cons_iff] at h
    rcases h with h | h
    · exact Or.inl ((prefix_of_prefix_append_cons x (y :: a) t b h hx).isInfix)
    · rcases ih b h with h' | h'
      · exact Or.inl (List.infix_cons h')
      · exact Or.inr h'

/-- When lower-casing works line by line, a string without line feed that occurs
in the lower-cased join of some lines occurs in one lower-cased line. -/
theorem infix_lower_intercalate (lower : JSString → JSString)
    (hline : ∀ a b, lower (a ++ 10 :: b) = lower a ++ 10 :: lower b)
    (t : JSString) (ht : 10 ∉ t) :
    ∀ ls : List JSString, ls ≠ [] → t <:+: lower ([10].intercalate ls) →
      ∃ line ∈ ls, t <:+: lower line := by
  intro ls
  induction ls with
  | nil => intro h; exact absurd rfl h
  | cons l ls ih =>
    intro _ h
    cases ls with
    | nil =>
      have hone : [10].intercalate [l] = l := by simp [List.intercalate]
      rw [hone] at h
      exact ⟨l, List.mem_singleton.mpr rfl, h⟩
    | cons l' ls =>
      have hjoin : [10].intercalate (l :: l' :: ls) = l ++ 10 :: [10].intercalate (l' :: ls) := by
        simp [List.intercalate, List.intersperse]
      rw [hjoin, hline] at h
      rcases infix_of_infix_append_cons 10 t ht _ _ h with h' | h'
      · exact ⟨l, List.mem_cons_self _ _, h'⟩
      · obtain ⟨line, hmem, hin⟩ := ih (List.cons_ne_nil _ _) h'
        exact ⟨line, List.mem_cons_of_mem _ hmem, hin⟩

/-- A query hit in the whole content is a hit in one of its lines, so that
`extractContentMatches` has an entry for it. -/
theorem extractContentMatches_ne_nil (lower : JSString → JSString)
    (hline : ∀ a b, lower (a ++ 10 :: b) = lower a ++ 10 :: lower b)
    (content query : JSString) (hq : 10 ∉ lower query)
    (h : lower query <:+: lower content) :
    extractContentMatches lower content query ≠ [] := by
  have hjoin := (split_spec 10 content).2
  rw [← hjoin] at h
  obtain ⟨line, hmem, hin⟩ :=
    infix_lower_intercalate lower hline (lower query) hq _ (split_ne_nil 10 content) h
  obtain ⟨n, hn⟩ := List.mem_iff_getElem?.mp hmem
  have henum : (n, line) ∈ (split 10 content).enum := List.mem_enum_iff_getElem?.mpr hn
  have hfilter : (n, line) ∈ (split 10 content).enum.filter
      (fun e => decide (lower query <:+: lower e.2)) :=
    List.mem_filter.mpr ⟨henum, by simpa using hin⟩
  simp only [extractContentMatches, slice, foldl_contentMatchStep, List.nil_append,
    List.drop_zero, ne_eq, List.take_eq_nil_iff, List.map_eq_nil_iff]
  rintro (h3 | hnil)
  · exact absurd h3 (by decide)
  · rw [hnil] at hfilter
    exact absurd hfilter (List.not_mem_nil _)

theorem toLowerCase_line (a b : JSString) :
    toLowerCase (a ++ 10 :: b) = toLowerCase a ++ 10 :: toLowerCase b := by
  simp [toLowerCase, toLowerCaseUnit]

theorem toLowerCase_no_line_feed (s : JSString) (h : 10 ∉ s) : 10 ∉ toLowerCase s := by
  intro hmem
  simp only [toLowerCase, List.mem_flatMap] at hmem
  obtain ⟨c, hc, hin⟩ := hmem
  unfold toLowerCaseUnit at hin
  split_ifs at hin with h1 h2
  · simp only [List.mem_singleton] at hin
    omega
  · simp at hin
  · simp only [List.mem_singleton] at hin
    exact h (hin ▸ hc)

/-- C26 (amended): for every index, options and query without a line feed, a
document whose score is positive has at least one match entry, and every result
`searchKnowledgeBase` returns carries a non-empty list of matches.  The two
hypotheses on `lower` are facts of `toLowerCase`: it works line by line (a line
feed is its own lower case and no casing context crosses it) and it produces no
line feed from other code units. -/
theorem results_carry_match_entries (lower : JSString → JSString)
    (hline : ∀ a b, lower (a ++ 10 :: b) = lower a ++ 10 :: lower b)
    (hfeed : ∀ s, 10 ∉ s → 10 ∉ lower s)
    (fileIndex : List FileInfo) (query : JSString) (options : SearchOptions)
    (hq : 10 ∉ query) :
    (∀ file : FileInfo, 0 < (tally lower query file).score →
        (tally lower query file).matchEntries ≠ []) ∧
      ∀ r ∈ (searchKnowledgeBase lower fileIndex query options).results,
        r.matchEntries ≠ [] := by
  have htally : ∀ file : FileInfo, 0 < (tally lower query file).score →
      (tally lower query file).matchEntries ≠ [] := by
    intro file hpos hnil
    have hcontent := (tally_matchEntries_nil lower query file hnil hpos).2.1
    have hne := extractContentMatches_ne_nil lower hline file.content query
      (hfeed query hq) hcontent
    rw [tally_matchEntries, if_pos hcontent] at hnil
    simp only [List.append_eq_nil] at hnil
    exact hne hnil.1.2
  refine ⟨htally, ?_⟩
  intro r hr
  obtain ⟨-, -, -, hscore, hpos, hentries, -⟩ :=
    mem_collectResults lower fileIndex query options r
      (mem_results lower fileIndex query options r hr)
  rw [hentries]
  exact htally r.file (hscore ▸ hpos)

/-- C26 (amended) at the index that holds the document extracted from
`"# Hello\nTag: #x #y\nCategory: Z\nworld"` at `foo/bar.md`, and the query
`world`, which only the content contains. -/
theorem results_carry_match_entries_witness :
    (∀ a b, toLowerCase (a ++ 10 :: b) = toLowerCase a ++ 10 :: toLowerCase b) ∧
      (∀ s, 10 ∉ s → 10 ∉ toLowerCase s) ∧ 10 ∉ js "world" ∧
      ((∀ file : FileInfo, 0 < (tally toLowerCase (js "world") file).score →
          (tally toLowerCase (js "world") file).matchEntries ≠ []) ∧
        ∀ r ∈ (searchKnowledgeBase toLowerCase
            [fileInfo (js "foo/bar.md") (js "# Hello\nTag: #x #y\nCategory: Z\nworld") 0]
            (js "world") ⟨none, none, none, none, none⟩).results,
          r.matchEntries ≠ []) :=
  ⟨toLowerCase_line, toLowerCase_no_line_feed, by decide,
    results_carry_match_entries toLowerCase toLowerCase_line toLowerCase_no_line_feed
      [fileInfo (js "foo/bar.md") (js "# Hello\nTag: #x #y\nCategory: Z\nworld") 0]
      (js "world") ⟨none, none, none, none, none⟩ (by decide)⟩

end KnowledgeBase
